import Mathlib

/-!
# Uncore frequency hierarchy of the power optimization library

A shallow embedding of `pkg/power/uncore.go` and `pkg/power/uncore_amd.go`
(package `power`), followed by theorems about it.

Conventions of the embedding

* Go's `uint` is a natural number below `uintSize` (64 bits on linux/amd64, the
  only target on which the E-SMI bridge is built); arithmetic that can wrap is
  written with an explicit reduction modulo `uintSize`.
* A Go `error` is `Option GoError` (`none` is `nil`); an `Uncore` interface value
  is `Option uncoreFreq` (`none` is `nil`), `*uncoreFreq` being the only
  implementation outside the tests.
* Package-level variables (`featureList`, `cpuIdentity`, `defaultUncore`,
  `basePath`, `kernelModulesFilePath`) are the fields of `Env`; the file system
  and the E-SMI library are the fields of `World`. Functions that touch them take
  and return these records explicitly.
* Logging has no effect on either record and is left out.
-/

namespace Power

/-! ## Errors, integers, text -/

/-- Go error value, identified by its message text. -/
structure GoError where
  text : String
deriving DecidableEq, Repr

/-- Number of values of Go's `uint` on a 64-bit target. -/
def uintSize : Nat := 2 ^ 64

/-- Unsigned subtraction `a - b` on `uint`, wrapping modulo `uintSize`. -/
def uintSub (a b : Nat) : Nat :=
  (a % uintSize + (uintSize - b % uintSize)) % uintSize

/-- Conversion to `C.uint8_t`. -/
def toUint8 (n : Nat) : Nat := n % 2 ^ 8

/-- Conversion to `C.uint32_t`. -/
def toUint32 (n : Nat) : Nat := n % 2 ^ 32

/-- Decimal digits of `n`, most significant first; `fuel` bounds the number of digits. -/
def decimalAux : Nat → Nat → List Char
  | 0, _ => []
  | fuel + 1, n =>
    if n < 10 then [Nat.digitChar n]
    else decimalAux fuel (n / 10) ++ [Nat.digitChar (n % 10)]

/-- Decimal text of an unsigned integer: `fmt.Sprint(n)` and the verb `%d`. -/
def fmtUint (n : Nat) : String := ⟨decimalAux (n + 1) n⟩

/-- The verb `%02d` on an unsigned integer: decimal, left-padded with `0` to width 2. -/
def fmtUint02 (n : Nat) : String :=
  if n < 10 then "0" ++ fmtUint n else fmtUint n

/-! ## Feature registry and CPU identity -/

/-- Entry of the feature registry (`featureStatus`); the `initFunc` field is not modelled. -/
structure featureStatus where
  name : String
  driver : String
  err : Option GoError
deriving DecidableEq, Repr

/-- Feature registry `FeatureSet`, a Go map from feature id to status, as its lookup. -/
abbrev FeatureSet := Nat → Option featureStatus

/-- Modelled from the spec: the sentinel `undefinederr` ("undefined feature"), declared in a
file of the package that is not at hand. -/
def undefinederr : GoError := ⟨"undefined feature"⟩

/-- Modelled from the spec: `FeatureSet.isFeatureIdSupported`, declared in a file of the
package that is not at hand; "false for missing slot or slot with error". -/
def FeatureSet.isFeatureIdSupported (set : FeatureSet) (id : Nat) : Bool :=
  match set id with
  | none => false
  | some status => status.err.isNone

/-- Modelled from the spec: `FeatureSet.getFeatureIdError`, declared in a file of the
package that is not at hand; "returns a sentinel undefined feature when slot is absent;
returns the slot's error otherwise". -/
def FeatureSet.getFeatureIdError (set : FeatureSet) (id : Nat) : Option GoError :=
  match set id with
  | none => some undefinederr
  | some status => status.err

/-- Value of `cpuIdentity.vendorID` as the `switch` statements of the package see it: equal
to the constant `vendorIDIntel`, equal to the constant `vendorIDAMD`, or some other
string. The two constants are declared outside the files at hand; being distinct `case`
labels of one `switch` they are distinct strings. -/
inductive VendorID where
  | vendorIDIntel
  | vendorIDAMD
  | other (name : String)
deriving DecidableEq, Repr

/-! ## Uncore values -/

/-- The struct `uncoreFreq`. -/
structure uncoreFreq where
  min : Nat
  max : Nat
deriving DecidableEq, Repr

/-- The interface `Uncore`; `none` is the nil interface value. -/
abbrev Uncore := Option uncoreFreq

/-- Package-level state read and written by the uncore code. -/
structure Env where
  /-- The registry `featureList`. -/
  featureList : FeatureSet
  /-- The feature id constant `UncoreFeature`, declared outside the files at hand. -/
  UncoreFeature : Nat
  /-- The field `cpuIdentity.vendorID`. -/
  vendorID : VendorID
  /-- The field `cpuIdentity.architecture`. -/
  architecture : String
  /-- The variable `defaultUncore` (the struct it points to). -/
  defaultUncore : uncoreFreq
  /-- The variable `basePath`. -/
  basePath : String
  /-- The variable `kernelModulesFilePath`. -/
  kernelModulesFilePath : String

/-- The function `normalizeUncoreFreq`: `freq - (freq % uint(100_000))`. -/
def normalizeUncoreFreq (freq : Nat) : Nat :=
  uintSub freq (freq % 100000)

/-- The function `NewUncore`; the result is the Go pair `(Uncore, error)`. -/
def NewUncore (env : Env) (minFreq maxFreq : Nat) : Uncore × Option GoError :=
  if !env.featureList.isFeatureIdSupported env.UncoreFeature then
    (none, env.featureList.getFeatureIdError env.UncoreFeature)
  else
    match env.vendorID with
    | .other name => (none, some ⟨"unsupported vendor: " ++ name⟩)
    | vendor =>
      let label : String :=
        if vendor = .vendorIDIntel then "uncore frequency (kHz)" else "DF P-state"
      if minFreq < env.defaultUncore.min then
        (none, some ⟨"requested min " ++ label ++ " " ++ fmtUint minFreq ++
          " is lower than " ++ fmtUint env.defaultUncore.min ++ " allowed by the hardware"⟩)
      else if maxFreq > env.defaultUncore.max then
        (none, some ⟨"requested max " ++ label ++ " " ++ fmtUint maxFreq ++
          " is higher than " ++ fmtUint env.defaultUncore.max ++ " allowed by the hardware"⟩)
      else if maxFreq < minFreq then
        (none, some ⟨"requested max " ++ label ++ " " ++ fmtUint maxFreq ++
          " cannot be lower than min " ++ label ++ " " ++ fmtUint minFreq⟩)
      else if vendor = .vendorIDIntel then
        let normalizedMin := normalizeUncoreFreq minFreq
        let normalizedMax := normalizeUncoreFreq maxFreq
        (some { min := normalizedMin, max := normalizedMax }, none)
      else
        (some { min := minFreq, max := maxFreq }, none)

/-! ## The operating system: files and the E-SMI library -/

/-- Call into the E-SMI C library, with the arguments as the C function receives them. -/
inductive EsmiCall where
  | esmi_init
  | esmi_apb_disable (sock_ind : Nat) (df_pstate : Nat)
  | esmi_df_pstate_range_set (sock_ind : Nat) (min_pstate : Nat) (max_pstate : Nat)
deriving DecidableEq, Repr

/-- What the program acts on. Files behave as in a plain directory tree (the fixture the
tests run against): a write succeeds exactly when the parent directory exists and the path
is not itself a directory. -/
structure World where
  /-- Paths of the directories that exist. -/
  dirs : List String
  /-- Regular files, path and content; the first entry for a path is the file. -/
  files : List (String × String)
  /-- Trace of the file writes that succeeded, oldest first: path and data. -/
  writes : List (String × String)
  /-- Trace of the E-SMI calls issued, oldest first. -/
  esmiCalls : List EsmiCall
  /-- Status code the E-SMI library answers to a call, given the calls before it. -/
  esmiStatus : List EsmiCall → EsmiCall → Int
  /-- The function `esmi_get_err_msg`. -/
  esmiErrMsg : Int → String

/-- The function `path.Join` on elements that are already clean: empty elements are
ignored and the others are separated by one slash. -/
def pathJoin : List String → String
  | [] => ""
  | e :: rest =>
    if e = "" then pathJoin rest
    else if pathJoin rest = "" then e
    else e ++ "/" ++ pathJoin rest

/-- Directory part of a path: everything before its last slash. -/
def dirOf (p : String) : String :=
  ⟨((p.data.reverse.dropWhile (fun c => c != '/')).drop 1).reverse⟩

/-- Content recorded for the path `p` in a list of files: that of the first entry for `p`. -/
def lookupFile (files : List (String × String)) (p : String) : Option String :=
  (files.find? (fun e => e.1 = p)).map (fun e => e.2)

/-- Content of the regular file at `p`, if there is one. -/
def World.readFile (w : World) (p : String) : Option String :=
  lookupFile w.files p

/-- The function `os.WriteFile(p, data, 0644)`: creates or truncates the file. The path is
resolved first, so a missing parent directory is reported before anything else. -/
def World.WriteFile (w : World) (p data : String) : World × Option GoError :=
  if dirOf p ∉ w.dirs then
    (w, some ⟨"open " ++ p ++ ": no such file or directory"⟩)
  else if p ∈ w.dirs then
    (w, some ⟨"open " ++ p ++ ": is a directory"⟩)
  else
    ({ w with files := (p, data) :: w.files, writes := w.writes ++ [(p, data)] }, none)

/-- Issue one E-SMI call: it is appended to the trace and its status returned. -/
def World.esmi (w : World) (call : EsmiCall) : World × Int :=
  ({ w with esmiCalls := w.esmiCalls ++ [call] }, w.esmiStatus w.esmiCalls call)

/-! ## Writing an uncore value -/

def intelUncoreKmodName : String := "intel_uncore_frequency"
def intelUncoreDirName : String := "intel_uncore_frequency"
def intelUncoreInitMaxFreqFile : String := "initial_max_freq_khz"
def intelUncoreInitMinFreqFile : String := "initial_min_freq_khz"
def intelUncoreMaxFreqFile : String := "max_freq_khz"
def intelUncoreMinFreqFile : String := "min_freq_khz"

/-- The text `fmt.Sprintf(intelUncorePathFmt, pkgId, dieId)` with
`intelUncorePathFmt = intelUncoreDirName + "/package_%02d_die_%02d"`. -/
def intelUncorePath (pkgId dieId : Nat) : String :=
  intelUncoreDirName ++ "/package_" ++ fmtUint02 pkgId ++ "_die_" ++ fmtUint02 dieId

/-- The method `uncoreFreq.writeIntel`. -/
def uncoreFreq.writeIntel (u : uncoreFreq) (env : Env) (pkgId dieId : Nat) (w : World) :
    World × Option GoError :=
  match w.WriteFile
      (pathJoin [env.basePath, intelUncorePath pkgId dieId, intelUncoreMaxFreqFile])
      (fmtUint u.max) with
  | (w1, some err) => (w1, some err)
  | (w1, none) =>
    match w1.WriteFile
        (pathJoin [env.basePath, intelUncorePath pkgId dieId, intelUncoreMinFreqFile])
        (fmtUint u.min) with
    | (w2, some err) => (w2, some err)
    | (w2, none) => (w2, none)

/-- The method `uncoreFreq.writeAMD` of `uncore_amd.go` (build linux, amd64, cgo). -/
def uncoreFreq.writeAMD (u : uncoreFreq) (pkgId : Nat) (w : World) : World × Option GoError :=
  if u.min = u.max then
    match w.esmi (.esmi_apb_disable (toUint32 pkgId) (toUint8 u.min)) with
    | (w1, esmi_status) =>
      if esmi_status ≠ 0 then
        (w1, some ⟨"DF Pstate set failed: " ++ w.esmiErrMsg esmi_status⟩)
      else (w1, none)
  else
    match w.esmi (.esmi_df_pstate_range_set (toUint8 pkgId) (toUint8 u.min) (toUint8 u.max)) with
    | (w1, esmi_status) =>
      if esmi_status ≠ 0 then
        (w1, some ⟨"DF Pstate range set failed: " ++ w.esmiErrMsg esmi_status⟩)
      else (w1, none)

/-- The method `uncoreFreq.writeAMD` of `uncore_amd_stub.go` (any other build). -/
def uncoreFreq.writeAMDStub (_u : uncoreFreq) (_pkgId : Nat) (w : World) :
    World × Option GoError :=
  (w, none)

/-- The method `uncoreFreq.write`. The flag `cgoAmd64` tells which of the two files
defining `writeAMD` the build selected. -/
def uncoreFreq.write (u : uncoreFreq) (env : Env) (cgoAmd64 : Bool) (pkgId dieId : Nat)
    (w : World) : World × Option GoError :=
  if !env.featureList.isFeatureIdSupported env.UncoreFeature then
    (w, none)
  else
    match env.vendorID with
    | .vendorIDIntel => u.writeIntel env pkgId dieId w
    | .vendorIDAMD => if cgoAmd64 then u.writeAMD pkgId w else u.writeAMDStub pkgId w
    | .other name => (w, some ⟨"unsupported vendor: " ++ name⟩)

/-! ## The topology tree and the apply walk

The types `cpuTopology`, `cpuPackage` and `cpuDie` are declared in a file of the package
that is not at hand; the fields below are the ones `uncore.go` reads and writes. The
collections `packages` and `dies` are Go maps: a list here stands for the map in the
order in which the `range` statement of the walk visits it. The parent pointers
`cpuDie.parentSocket` and `cpuPackage.topology` become explicit arguments, and a method
with a pointer receiver inside the tree takes the tree and the position of the receiver. -/

/-- The fields of `cpuDie` used by the uncore code. -/
structure cpuDie where
  id : Nat
  uncore : Uncore
deriving DecidableEq, Repr

/-- The fields of `cpuPackage` used by the uncore code; `getID` returns `id`. -/
structure cpuPackage where
  id : Nat
  uncore : Uncore
  dies : List cpuDie
deriving DecidableEq, Repr

/-- The fields of `cpuTopology` used by the uncore code. -/
structure cpuTopology where
  uncore : Uncore
  packages : List cpuPackage
deriving DecidableEq, Repr

/-- The loop `for _, x := range xs { if err := x.applyUncore(); err != nil { return err } }`
followed by `return nil`. -/
def rangeApply (apply : α → World → World × Option GoError) :
    List α → World → World × Option GoError
  | [], w => (w, none)
  | x :: rest, w =>
    match apply x w with
    | (w1, some err) => (w1, some err)
    | (w1, none) => rangeApply apply rest w1

/-- The method `cpuTopology.getEffectiveUncore`. -/
def cpuTopology.getEffectiveUncore (s : cpuTopology) (env : Env) : uncoreFreq :=
  match s.uncore with
  | none => env.defaultUncore
  | some uncore => uncore

/-- The method `cpuPackage.getEffectiveUncore`; `s` is `c.topology`. -/
def cpuPackage.getEffectiveUncore (c : cpuPackage) (env : Env) (s : cpuTopology) : uncoreFreq :=
  match c.uncore with
  | some uncore => uncore
  | none => s.getEffectiveUncore env

/-- The method `cpuDie.getEffectiveUncore`; `c` is `d.parentSocket`. -/
def cpuDie.getEffectiveUncore (d : cpuDie) (env : Env) (s : cpuTopology) (c : cpuPackage) :
    uncoreFreq :=
  match d.uncore with
  | some uncore => uncore
  | none => c.getEffectiveUncore env s

/-- The method `cpuDie.applyUncore`. -/
def cpuDie.applyUncore (d : cpuDie) (env : Env) (cgoAmd64 : Bool) (s : cpuTopology)
    (c : cpuPackage) (w : World) : World × Option GoError :=
  (d.getEffectiveUncore env s c).write env cgoAmd64 c.id d.id w

/-- The method `cpuPackage.applyUncore`. -/
def cpuPackage.applyUncore (c : cpuPackage) (env : Env) (cgoAmd64 : Bool) (s : cpuTopology)
    (w : World) : World × Option GoError :=
  rangeApply (fun die => die.applyUncore env cgoAmd64 s c) c.dies w

/-- The method `cpuTopology.applyUncore`. -/
def cpuTopology.applyUncore (s : cpuTopology) (env : Env) (cgoAmd64 : Bool) (w : World) :
    World × Option GoError :=
  rangeApply (fun pkg => pkg.applyUncore env cgoAmd64 s) s.packages w

/-- The method `cpuTopology.SetUncore`: the tree after the call, the world after the call
and the error returned. -/
def cpuTopology.SetUncore (s : cpuTopology) (env : Env) (cgoAmd64 : Bool) (uncore : Uncore)
    (w : World) : cpuTopology × World × Option GoError :=
  let s1 : cpuTopology := { s with uncore := uncore }
  let r := s1.applyUncore env cgoAmd64 w
  (s1, r.1, r.2)

/-- The method `cpuPackage.SetUncore` on the package at position `i` of the tree `s`;
`none` when the tree has no such package. -/
def cpuPackage.SetUncore (s : cpuTopology) (i : Nat) (env : Env) (cgoAmd64 : Bool)
    (uncore : Uncore) (w : World) : Option (cpuTopology × World × Option GoError) :=
  match s.packages[i]? with
  | none => none
  | some c =>
    let c1 : cpuPackage := { c with uncore := uncore }
    let s1 : cpuTopology := { s with packages := s.packages.set i c1 }
    let r := c1.applyUncore env cgoAmd64 s1 w
    some (s1, r.1, r.2)

/-- The method `cpuDie.SetUncore` on the die at position `j` of the package at position
`i` of the tree `s`; `none` when the tree has no such die. -/
def cpuDie.SetUncore (s : cpuTopology) (i j : Nat) (env : Env) (cgoAmd64 : Bool)
    (uncore : Uncore) (w : World) : Option (cpuTopology × World × Option GoError) :=
  match s.packages[i]? with
  | none => none
  | some c =>
    match c.dies[j]? with
    | none => none
    | some d =>
      let d1 : cpuDie := { d with uncore := uncore }
      let c1 : cpuPackage := { c with dies := c.dies.set j d1 }
      let s1 : cpuTopology := { s with packages := s.packages.set i c1 }
      let r := d1.applyUncore env cgoAmd64 s1 c1 w
      some (s1, r.1, r.2)

/-! ## Feature initialisation on Intel -/

/-- Drop one trailing carriage return, as `bufio.ScanLines` does for each line. -/
def dropCR (line : List Char) : List Char :=
  if line.getLast? = some '\r' then line.dropLast else line

/-- The tokens of `bufio.ScanLines`: `rest` is the unread input and `cur` the current line,
last character first. A final line without a newline is a token unless it is empty. -/
def scanLinesAux : List Char → List Char → List (List Char)
  | [], cur => if cur = [] then [] else [dropCR cur.reverse]
  | c :: rest, cur =>
    if c = '\n' then dropCR cur.reverse :: scanLinesAux rest []
    else scanLinesAux rest (c :: cur)

/-- The lines a `bufio.Scanner` yields for a file content (every line is taken to fit the
scanner's buffer). -/
def scanLines (content : String) : List String :=
  (scanLinesAux content.data []).map String.mk

/-- The function `strings.Contains`. -/
def stringsContains : List Char → List Char → Bool
  | [], substr => substr.isEmpty
  | c :: rest, substr => substr.isPrefixOf (c :: rest) || stringsContains rest substr

/-- The function `checkKernelModuleLoaded`. -/
def checkKernelModuleLoaded (env : Env) (w : World) (module : String) : Bool :=
  match w.readFile env.kernelModulesFilePath with
  | none => false
  | some content => (scanLines content).any (fun line => stringsContains line.data module.data)

/-- Value of a decimal digit character. -/
def digitValue (c : Char) : Nat := c.toNat - 48

/-- Whether a character is one of `0` to `9`. -/
def isDigit (c : Char) : Bool := 48 ≤ c.toNat && c.toNat ≤ 57

/-- Value of a string of decimal digits. -/
def decimalValue (ds : List Char) : Nat :=
  ds.foldl (fun acc c => acc * 10 + digitValue c) 0

/-- Remove trailing white space. -/
def trimRight (cs : List Char) : List Char :=
  (cs.reverse.dropWhile (fun c => c = ' ' || c = '\n' || c = '\t' || c = '\r')).reverse

/-- Modelled from the spec: the helper `readUintFromFile`, declared in a file of the package
that is not at hand; "typed read helper", "trailing whitespace is trimmed on read", "failures
map to an I/O error kind carrying the path". The content must be a non-empty string of
decimal digits whose value fits `uint`; the value is 0 when there is an error. -/
def readUintFromFile (w : World) (p : String) : Nat × Option GoError :=
  match w.readFile p with
  | none => (0, some ⟨"open " ++ p ++ ": no such file or directory"⟩)
  | some content =>
    let digits := trimRight content.data
    if digits ≠ [] ∧ digits.all isDigit ∧ decimalValue digits < uintSize then
      (decimalValue digits, none)
    else
      (0, some ⟨"failed to parse an unsigned integer from " ++ p⟩)

/-- The function `readUncoreProperty`. -/
def readUncoreProperty (env : Env) (w : World) (pkgID dieID : Nat) (property : String) :
    Nat × Option GoError :=
  readUintFromFile w (pathJoin [env.basePath, intelUncorePath pkgID dieID, property])

/-- Whether `os.OpenFile(p, os.O_RDONLY, 0)` finds something at `p`. -/
def World.exists (w : World) (p : String) : Bool :=
  decide (p ∈ w.dirs) || (w.readFile p).isSome

/-- Whether `Readdirnames(1)` on the directory `p` yields a name: `p` is a directory with
at least one entry. -/
def World.hasEntry (w : World) (p : String) : Bool :=
  decide (p ∈ w.dirs) &&
    (w.dirs.any (fun d => d ≠ p && dirOf d = p) || w.files.any (fun e => dirOf e.1 = p))

/-- The function `initIntelUncore`: the package-level state after the call and the error
returned. -/
def initIntelUncore (env : Env) (w : World) : Env × Option GoError :=
  if !checkKernelModuleLoaded env w intelUncoreKmodName then
    (env, some ⟨"kernel module " ++ intelUncoreKmodName ++ " not loaded"⟩)
  else
    let uncoreDirPath := pathJoin [env.basePath, intelUncoreDirName]
    if !w.exists uncoreDirPath then
      (env, some ⟨"failed to open uncore dir: open " ++ uncoreDirPath ++
        ": no such file or directory"⟩)
    else if !w.hasEntry uncoreDirPath then
      (env, some ⟨"uncore dir empty or invalid: " ++
        (if uncoreDirPath ∈ w.dirs then "EOF" else "not a directory")⟩)
    else
      match readUncoreProperty env w 0 0 intelUncoreInitMaxFreqFile with
      | (_, some err) => (env, some ⟨"failed to determine init freq: " ++ err.text⟩)
      | (value, none) =>
        let env1 : Env := { env with defaultUncore := { env.defaultUncore with max := value } }
        match readUncoreProperty env1 w 0 0 intelUncoreInitMinFreqFile with
        | (_, some err) => (env1, some ⟨"failed to determine init freq: " ++ err.text⟩)
        | (value, none) =>
          ({ env1 with defaultUncore := { env1.defaultUncore with min := value } }, none)

/-! ## Feature initialisation on AMD and `initUncore` -/

def amdHsmpKmodName : String := "amd_hsmp"

/-- The function `initAMDUncore` of `uncore_amd.go` (build linux, amd64, cgo): the
package-level state and the world after the call, and the error returned. -/
def initAMDUncore (env : Env) (w : World) : Env × World × Option GoError :=
  if !checkKernelModuleLoaded env w amdHsmpKmodName then
    (env, w, some ⟨"kernel module " ++ amdHsmpKmodName ++ " not loaded"⟩)
  else
    match w.esmi .esmi_init with
    | (w1, esmi_status) =>
      if esmi_status ≠ 0 then
        (env, w1, some ⟨"AMD ESMI Initialization failed:" ++ w.esmiErrMsg esmi_status⟩)
      else
        let env1 : Env := { env with defaultUncore := { env.defaultUncore with min := 0 } }
        let env2 : Env := { env1 with defaultUncore := { env1.defaultUncore with max := 2 } }
        match w1.esmi (.esmi_df_pstate_range_set (toUint8 0) (toUint8 env2.defaultUncore.min)
            (toUint8 env2.defaultUncore.max)) with
        | (w2, esmi_status) =>
          if esmi_status ≠ 0 then
            (env2, w2, some ⟨"DF Pstate range set failed: " ++ w.esmiErrMsg esmi_status⟩)
          else (env2, w2, none)

/-- The function `initAMDUncore` of `uncore_amd_stub.go` (any other build). -/
def initAMDUncoreStub (env : Env) (w : World) : Env × World × Option GoError :=
  (env, w, none)

/-- The function `initUncore`: the feature status returned, and the package-level state and
the world after the call. The flag `cgoAmd64` tells which of the two files defining
`initAMDUncore` the build selected. -/
def initUncore (env : Env) (cgoAmd64 : Bool) (w : World) : featureStatus × Env × World :=
  let feature : featureStatus := { name := "Uncore frequency", driver := "N/A", err := none }
  match env.vendorID with
  | .vendorIDIntel =>
    match initIntelUncore env w with
    | (env1, some err) =>
      ({ feature with err := some ⟨"uncore feature error: " ++ err.text⟩ }, env1, w)
    | (env1, none) => (feature, env1, w)
  | .vendorIDAMD =>
    match (if cgoAmd64 then initAMDUncore env w else initAMDUncoreStub env w) with
    | (env1, w1, some err) =>
      ({ feature with err := some ⟨"uncore feature error: " ++ err.text⟩ }, env1, w1)
    | (env1, w1, none) => (feature, env1, w1)
  | .other name =>
    ({ feature with
        err := some ⟨"uncore feature is not supported on " ++ env.architecture ++
          " architecture (" ++ name ++ " vendor)"⟩ }, env, w)

/-! ## The host and its pools

Of `host.go` the functions `initHost` and `AddExclusivePool` are embedded. The pool and CPU
types, the pool list methods, the two pool name constants and `discoverTopology` are
declared in files of the package that are not at hand. A pointer to a pool is a `PoolRef`;
a `Pool` or `Cpu` interface value is the record it points to. The mutex of a pool and its
pointer back to the host are not modelled, nor is the pointer `featureStates` to the
registry. -/

/-- The pool a pointer designates within its host. -/
inductive PoolRef where
  | reservedPool
  | sharedPool
  | exclusivePool (index : Nat)
deriving DecidableEq, Repr

/-- Modelled from the spec: the CPU object behind the interface `Cpu`, declared in a file of
the package that is not at hand; "identified by a non-negative integer ID; attributes
include current_pool". -/
structure Cpu where
  id : Nat
  pool : Option PoolRef
deriving DecidableEq, Repr

/-- Modelled from the spec: the method `_setPoolProperty`, declared in a file of the package
that is not at hand; it records the pool the CPU belongs to ("current_pool"). -/
def Cpu._setPoolProperty (cpu : Cpu) (pool : PoolRef) : Cpu :=
  { cpu with pool := some pool }

/-- The slice type `CpuList`. -/
abbrev CpuList := List Cpu

/-- The three pool types that wrap `poolImpl`. -/
inductive PoolKind where
  | reservedPoolType
  | sharedPoolType
  | exclusivePoolType
deriving DecidableEq, Repr

/-- A pool: its concrete type and the fields of `poolImpl` that `host.go` sets. -/
structure Pool where
  kind : PoolKind
  name : String
  cpus : CpuList
deriving DecidableEq, Repr

/-- The slice type `PoolList`. -/
abbrev PoolList := List Pool

/-- Modelled from the spec: the method `PoolList.IndexOfName`, declared in a file of the
package that is not at hand; exclusive pools are "name-indexed": the position of the first
pool of that name, and -1 when there is none. -/
def PoolList.IndexOfName : PoolList → String → Int
  | [], _ => -1
  | pool :: rest, name =>
    if pool.name = name then 0
    else if PoolList.IndexOfName rest name ≥ 0 then PoolList.IndexOfName rest name + 1
    else -1

/-- Modelled from the spec: the method `PoolList.add`, declared in a file of the package
that is not at hand; exclusive pools are "user-created": the pool is appended. -/
def PoolList.add (pools : PoolList) (pool : Pool) : PoolList :=
  pools ++ [pool]

/-- The interface `Topology` as `host.go` uses it: the method `CPUs`. -/
structure Topology where
  CPUs : CpuList
deriving DecidableEq, Repr

/-- The struct `hostImpl`. -/
structure hostImpl where
  name : String
  architecture : String
  vendorId : VendorID
  exclusivePools : PoolList
  reservedPool : Pool
  sharedPool : Pool
  topology : Topology
deriving DecidableEq, Repr

/-- The function `initHost`. The constants `reservedPoolName` and `sharedPoolName` and the
result of the call `discoverTopology()` are parameters. The loop over the CPUs sets the pool
property of each; `make` and `copy` then give the Reserved pool the first `len` CPU pointers
of the topology, `len` being their number. -/
def initHost (env : Env) (reservedPoolName sharedPoolName : String)
    (discoverTopology : Topology × Option GoError) (nodeName : String) :
    Option hostImpl × Option GoError :=
  let reservedPool : Pool :=
    { kind := .reservedPoolType, name := reservedPoolName, cpus := [] }
  let sharedPool : Pool :=
    { kind := .sharedPoolType, name := sharedPoolName, cpus := [] }
  match discoverTopology with
  | (_, some err) => (none, some ⟨"failed to init host: " ++ err.text⟩)
  | (topology, none) =>
    let topology1 : Topology :=
      { CPUs := topology.CPUs.map (fun cpu => cpu._setPoolProperty .reservedPool) }
    (some {
        name := nodeName
        architecture := env.architecture
        vendorId := env.vendorID
        exclusivePools := []
        reservedPool :=
          { reservedPool with cpus := topology1.CPUs.take topology1.CPUs.length }
        sharedPool := sharedPool
        topology := topology1 },
      none)

/-- The method `hostImpl.AddExclusivePool`: the host after the call, the pool returned and
the error returned; `none` stands for the run-time panic of an index out of range. -/
def hostImpl.AddExclusivePool (host : hostImpl) (poolName : String) :
    Option (hostImpl × Pool × Option GoError) :=
  if PoolList.IndexOfName host.exclusivePools poolName ≥ 0 then
    match host.exclusivePools[(PoolList.IndexOfName host.exclusivePools poolName).toNat]? with
    | none => none
    | some pool =>
      some (host, pool, some ⟨"pool with name " ++ poolName ++ " already exists"⟩)
  else
    let pool : Pool := { kind := .exclusivePoolType, name := poolName, cpus := [] }
    some ({ host with exclusivePools := PoolList.add host.exclusivePools pool }, pool, none)

/-- A sequence of `AddExclusivePool` calls, one per name, each on the host the call before
left; `none` if one of them panics. -/
def hostImpl.addExclusivePools (host : hostImpl) : List String → Option hostImpl
  | [] => some host
  | poolName :: rest =>
    match host.AddExclusivePool poolName with
    | none => none
    | some (host1, _, _) => hostImpl.addExclusivePools host1 rest

/-- The names of all pools of a host: Reserved, Shared, then every Exclusive pool. -/
def hostImpl.poolNames (host : hostImpl) : List String :=
  host.reservedPool.name :: host.sharedPool.name :: host.exclusivePools.map (fun p => p.name)

/-- The pools of a host: Reserved, Shared, then every Exclusive pool. -/
def hostImpl.pools (host : hostImpl) : List Pool :=
  host.reservedPool :: host.sharedPool :: host.exclusivePools

/-! ## Vocabulary of the statements -/

/-- Path of a file of the die directory of `(pkgId, dieId)`, as `writeIntel` and
`readUncoreProperty` build it. -/
def uncoreFilePath (env : Env) (pkgId dieId : Nat) (file : String) : String :=
  pathJoin [env.basePath, intelUncorePath pkgId dieId, file]

/-- An override that is nil or was returned, with a nil error, by `NewUncore` on an Intel
host for some request of two `uint` values. -/
def nilOrFromNewUncoreIntel (uncore : Uncore) : Prop :=
  uncore = none ∨
    ∃ (env0 : Env) (minFreq maxFreq : Nat),
      env0.vendorID = .vendorIDIntel ∧ minFreq < uintSize ∧ maxFreq < uintSize ∧
      NewUncore env0 minFreq maxFreq = (uncore, none)

/-- In the world `w1`, reached from `w`, the two files of die `d` of package `c` hold the
decimal text of the maximum and the minimum of `d`'s effective uncore, and both were
written on the way from `w` to `w1`. -/
def dieFilesHold (env : Env) (s : cpuTopology) (c : cpuPackage) (d : cpuDie)
    (w w1 : World) : Prop :=
  w1.readFile (uncoreFilePath env c.id d.id intelUncoreMaxFreqFile)
    = some (fmtUint (d.getEffectiveUncore env s c).max) ∧
  w1.readFile (uncoreFilePath env c.id d.id intelUncoreMinFreqFile)
    = some (fmtUint (d.getEffectiveUncore env s c).min) ∧
  ∃ new, w1.writes = w.writes ++ new ∧
    (uncoreFilePath env c.id d.id intelUncoreMaxFreqFile,
      fmtUint (d.getEffectiveUncore env s c).max) ∈ new ∧
    (uncoreFilePath env c.id d.id intelUncoreMinFreqFile,
      fmtUint (d.getEffectiveUncore env s c).min) ∈ new

/-- Package ids are pairwise distinct, and so are the die ids within each package: the
collections are Go maps keyed by id. -/
def cpuTopology.keysDistinct (s : cpuTopology) : Prop :=
  (s.packages.map (fun c => c.id)).Nodup ∧
    ∀ c ∈ s.packages, (c.dies.map (fun d => d.id)).Nodup

/-! ## Sample data: the fixtures of the package's tests -/

/-- Package-level state as `setupIntelUncoreTests` leaves it: Intel, base path
`testing/cpus`, the uncore slot of the registry without error. -/
def testEnv : Env where
  featureList := fun id =>
    if id = 3 then some { name := "Uncore frequency", driver := "N/A", err := none } else none
  UncoreFeature := 3
  vendorID := .vendorIDIntel
  architecture := "x86_64"
  defaultUncore := { min := 0, max := 0 }
  basePath := "testing/cpus"
  kernelModulesFilePath := "testing/cpus/kernelModules"

/-- The directory tree of `Test_initUncore` (happy path): one die directory with the two
`initial_*` files, and a modules file that lists the uncore module. -/
def testWorldInit : World where
  dirs := ["testing", "testing/cpus", "testing/cpus/intel_uncore_frequency",
    "testing/cpus/intel_uncore_frequency/package_00_die_00"]
  files := [
    ("testing/cpus/kernelModules",
      "intel_cstates 14 0 - Live 0000ffffad212d\n" ++
      "intel_uncore_frequency 324 0 - Live 0000ffff3ea334\n" ++
      "rtscan 2342 0 -Live 0000ffff234ab4d"),
    ("testing/cpus/intel_uncore_frequency/package_00_die_00/initial_max_freq_khz", "999"),
    ("testing/cpus/intel_uncore_frequency/package_00_die_00/initial_min_freq_khz", "100")]
  writes := []
  esmiCalls := []
  esmiStatus := fun _ _ => 0
  esmiErrMsg := fun _ => ""

/-- Package-level state of `TestNewUncore`, Intel part: hardware range 1200000 to 2400000. -/
def testEnvIntel : Env :=
  { testEnv with defaultUncore := { min := 1200000, max := 2400000 } }

/-- Package-level state of `TestNewUncore`, AMD part: DF P-state range 0 to 2. -/
def testEnvAMD : Env :=
  { testEnv with vendorID := .vendorIDAMD, defaultUncore := { min := 0, max := 2 } }

/-- Package-level state of `TestNewUncore`, last part: the uncore slot carries an error. -/
def testEnvUnsupported : Env :=
  { testEnvAMD with
    featureList := fun id =>
      if id = 3 then
        some { name := "Uncore frequency", driver := "N/A",
               err := some ⟨"uncore feature is not supported on aarch64 architecture (Ampere vendor)"⟩ }
      else none }

/-- A world with no files in which every E-SMI call answers status 0. -/
def testWorldAMD : World where
  dirs := []
  files := []
  writes := []
  esmiCalls := []
  esmiStatus := fun _ _ => 0
  esmiErrMsg := fun _ => ""

/-- The directory tree of `TestUncoreFreq_write`: two die directories, each with its
`max_freq_khz` and `min_freq_khz` files. -/
def testWorldWrite : World where
  dirs := ["testing", "testing/cpus", "testing/cpus/intel_uncore_frequency",
    "testing/cpus/intel_uncore_frequency/package_00_die_00",
    "testing/cpus/intel_uncore_frequency/package_01_die_00"]
  files := [
    ("testing/cpus/intel_uncore_frequency/package_00_die_00/max_freq_khz", "999"),
    ("testing/cpus/intel_uncore_frequency/package_00_die_00/min_freq_khz", "100"),
    ("testing/cpus/intel_uncore_frequency/package_01_die_00/max_freq_khz", "999"),
    ("testing/cpus/intel_uncore_frequency/package_01_die_00/min_freq_khz", "100")]
  writes := []
  esmiCalls := []
  esmiStatus := fun _ _ => 0
  esmiErrMsg := fun _ => ""

/-- A topology of two packages: package 0 with die 0, package 1 with die 0, no override. -/
def testTopology : cpuTopology where
  uncore := none
  packages := [
    { id := 0, uncore := none, dies := [{ id := 0, uncore := none }] },
    { id := 1, uncore := none, dies := [{ id := 0, uncore := none }] }]

/-- The topology `testTopology` after `SetUncore` of the value `TestNewUncore` obtains. -/
def testTopologySet : cpuTopology :=
  { testTopology with uncore := some { min := 1400000, max := 2200000 } }

/-- A topology of one package with one die, no override anywhere. -/
def testTopologyOne : cpuTopology where
  uncore := none
  packages := [{ id := 0, uncore := none, dies := [{ id := 0, uncore := none }] }]

/-- A topology whose second package has a die without a directory in `testWorldWrite`. -/
def testTopologyMissing : cpuTopology where
  uncore := none
  packages := [
    { id := 0, uncore := none, dies := [{ id := 0, uncore := none }] },
    { id := 2, uncore := none, dies := [{ id := 3, uncore := none }] }]

/-- The directory tree of `Test_initUncore`, module not loaded: the modules file lists
`intel_cstates` but not the uncore module. -/
def testWorldNotLoaded : World where
  dirs := ["testing", "testing/cpus", "testing/cpus/intel_uncore_frequency"]
  files := [
    ("testing/cpus/kernelModules",
      "intel_cstates 14 0 - Live 0000ffffad212d\n" ++
      "rtscan 2342 0 -Live 0000ffff234ab4d")]
  writes := []
  esmiCalls := []
  esmiStatus := fun _ _ => 0
  esmiErrMsg := fun _ => ""

/-- A discovered topology of four CPUs, none assigned to a pool yet. -/
def testDiscovered : Topology where
  CPUs := [{ id := 0, pool := none }, { id := 1, pool := none },
    { id := 2, pool := none }, { id := 3, pool := none }]

/-- The host `initHost` builds from `testDiscovered`, the two pool name constants being
`reservedPool` and `sharedPool`. -/
def testHost : Option hostImpl :=
  (initHost testEnv "reservedPool" "sharedPool" (testDiscovered, none) "host").1

/-! ## Decimal text and file paths -/

theorem digitChar_value (d : Nat) (h : d < 10) : digitValue (Nat.digitChar d) = d := by
  interval_cases d <;> rfl

theorem digitChar_isDigit (d : Nat) (h : d < 10) : isDigit (Nat.digitChar d) = true := by
  interval_cases d <;> rfl

theorem decimalValue_append_single (xs : List Char) (c : Char) :
    decimalValue (xs ++ [c]) = decimalValue xs * 10 + digitValue c := by
  simp [decimalValue, List.foldl_append]

theorem decimalAux_value (fuel n : Nat) (h : n < fuel) :
    decimalValue (decimalAux fuel n) = n := by
  induction fuel generalizing n with
  | zero => omega
  | succ fuel ih =>
    unfold decimalAux
    split_ifs with h10
    · simp [decimalValue, digitChar_value n h10]
    · rw [decimalValue_append_single, ih (n / 10) (by omega),
        digitChar_value _ (Nat.mod_lt _ (by norm_num))]
      omega

theorem decimalAux_digits (fuel n : Nat) : ∀ c ∈ decimalAux fuel n, isDigit c = true := by
  induction fuel generalizing n with
  | zero => simp [decimalAux]
  | succ fuel ih =>
    unfold decimalAux
    split_ifs with h10
    · intro c hc
      simp at hc
      subst hc
      exact digitChar_isDigit n h10
    · intro c hc
      simp at hc
      rcases hc with hc | hc
      · exact ih _ c hc
      · subst hc
        exact digitChar_isDigit _ (Nat.mod_lt _ (by norm_num))

/-- The decimal text of a number is read back as that number. -/
theorem fmtUint_value (n : Nat) : decimalValue (fmtUint n).data = n :=
  decimalAux_value (n + 1) n (by omega)

theorem fmtUint_injective (a b : Nat) (h : fmtUint a = fmtUint b) : a = b := by
  have := congrArg (fun t => decimalValue t.data) h
  simpa [fmtUint_value] using this

theorem fmtUint02_value (n : Nat) : decimalValue (fmtUint02 n).data = n := by
  unfold fmtUint02
  split_ifs with h
  · have := fmtUint_value n
    simp [decimalValue, digitValue] at this ⊢
    exact this
  · exact fmtUint_value n

theorem fmtUint02_digits (n : Nat) : ∀ c ∈ (fmtUint02 n).data, isDigit c = true := by
  unfold fmtUint02
  split_ifs with h
  · intro c hc
    simp at hc
    rcases hc with hc | hc
    · subst hc
      rfl
    · exact decimalAux_digits _ _ c hc
  · exact decimalAux_digits _ _

/-- Two texts that start with digits and go on with a character that is not a digit agree
on the digits and on the rest. -/
theorem digits_prefix_unique (xs ys : List Char) (c c2 : Char) (r r2 : List Char)
    (hx : ∀ a ∈ xs, isDigit a = true) (hy : ∀ a ∈ ys, isDigit a = true)
    (hc : isDigit c = false) (hc2 : isDigit c2 = false)
    (h : xs ++ c :: r = ys ++ c2 :: r2) : xs = ys ∧ r = r2 := by
  induction xs generalizing ys with
  | nil =>
    cases ys with
    | nil =>
      simp at h
      exact ⟨rfl, h.2⟩
    | cons y ys =>
      simp at h
      have := hy y (by simp)
      rw [← h.1, hc] at this
      exact absurd this (by simp)
  | cons x xs ih =>
    cases ys with
    | nil =>
      simp at h
      have := hx x (by simp)
      rw [h.1, hc2] at this
      exact absurd this (by simp)
    | cons y ys =>
      simp at h
      obtain ⟨hxy, hrest⟩ := h
      have := ih ys (fun a ha => hx a (by simp [ha])) (fun a ha => hy a (by simp [ha])) hrest
      exact ⟨by rw [hxy, this.1], this.2⟩

theorem pathJoin_three (b sub file : String) (hs : sub ≠ "") (hf : file ≠ "") :
    pathJoin [b, sub, file] = (if b = "" then "" else b ++ "/") ++ (sub ++ "/" ++ file) := by
  have h1 : pathJoin [file] = file := by simp [pathJoin, hf]
  have hne : sub ++ "/" ++ file ≠ "" := by
    intro h
    have := congrArg String.data h
    simp at this
  have h2 : pathJoin [sub, file] = sub ++ "/" ++ file := by
    rw [pathJoin, h1]
    simp [hs, hf]
  rw [pathJoin, h2]
  by_cases hb : b = ""
  · simp [hb]
  · simp only [hb, hne, if_false]

theorem intelUncorePath_ne_empty (pkgId dieId : Nat) : intelUncorePath pkgId dieId ≠ "" := by
  intro h
  have := congrArg String.data h
  simp [intelUncorePath, intelUncoreDirName] at this

/-- Distinct (package, die, file) triples have distinct paths, for the two files the
Intel writer touches. -/
theorem uncoreFilePath_inj (env : Env) (p d p2 d2 : Nat) (f f2 : String)
    (hf : f = intelUncoreMaxFreqFile ∨ f = intelUncoreMinFreqFile)
    (hf2 : f2 = intelUncoreMaxFreqFile ∨ f2 = intelUncoreMinFreqFile)
    (h : uncoreFilePath env p d f = uncoreFilePath env p2 d2 f2) :
    p = p2 ∧ d = d2 ∧ f = f2 := by
  have hfe : f ≠ "" := by
    rcases hf with hf | hf <;> subst hf <;> decide
  have hfe2 : f2 ≠ "" := by
    rcases hf2 with hf2 | hf2 <;> subst hf2 <;> decide
  unfold uncoreFilePath at h
  rw [pathJoin_three _ _ _ (intelUncorePath_ne_empty p d) hfe,
    pathJoin_three _ _ _ (intelUncorePath_ne_empty p2 d2) hfe2] at h
  have h1 := congrArg String.data h
  simp only [String.data_append, List.append_assoc] at h1
  have h2 := List.append_cancel_left h1
  simp [intelUncorePath, intelUncoreDirName] at h2
  obtain ⟨hp, h3⟩ := digits_prefix_unique _ _ _ _ _ _ (fmtUint02_digits p) (fmtUint02_digits p2)
    (by decide) (by decide) h2
  simp at h3
  obtain ⟨hd, h4⟩ := digits_prefix_unique _ _ _ _ _ _ (fmtUint02_digits d) (fmtUint02_digits d2)
    (by decide) (by decide) h3
  refine ⟨?_, ?_, String.ext h4⟩
  · have := congrArg decimalValue hp
    simpa [fmtUint02_value] using this
  · have := congrArg decimalValue hd
    simpa [fmtUint02_value] using this

/-! ## Arithmetic of `normalizeUncoreFreq` -/

theorem normalizeUncoreFreq_eq (x : Nat) (hx : x < uintSize) :
    normalizeUncoreFreq x = x - x % 100000 := by
  unfold normalizeUncoreFreq uintSub
  unfold uintSize at *
  omega

theorem normalizeUncoreFreq_mod (x : Nat) (hx : x < uintSize) :
    normalizeUncoreFreq x % 100000 = 0 := by
  rw [normalizeUncoreFreq_eq x hx]
  omega

/-- C2: for every unsigned `x`, `normalizeUncoreFreq x` is the greatest multiple of 100000
not above `x`: it is at most `x`, a multiple of 100000, less than 100000 below `x`, and no
multiple of 100000 lies strictly between it and `x`; a multiple of 100000 is returned
unchanged; the subtraction never wraps, the subtrahend `x % 100000` being at most `x`;
1511111 gives 1500000 and 12 gives 0. -/
theorem normalizeUncoreFreq_greatest_multiple (x : Nat) (hx : x < uintSize) :
    normalizeUncoreFreq x ≤ x ∧
    normalizeUncoreFreq x % 100000 = 0 ∧
    x - normalizeUncoreFreq x < 100000 ∧
    (∀ m : Nat, m % 100000 = 0 → m ≤ x → m ≤ normalizeUncoreFreq x) ∧
    (x % 100000 = 0 → normalizeUncoreFreq x = x) ∧
    x % 100000 ≤ x ∧
    normalizeUncoreFreq x + x % 100000 = x ∧
    normalizeUncoreFreq 1511111 = 1500000 ∧
    normalizeUncoreFreq 1500000 = 1500000 ∧
    normalizeUncoreFreq 12 = 0 := by
  have h := normalizeUncoreFreq_eq x hx
  refine ⟨by omega, by omega, by omega, ?_, by omega, by omega, by omega,
    by decide, by decide, by decide⟩
  intro m hm hle
  omega

/-- The statement of C2 at 1100001, a value of `TestNormalizeUncoreFrequency`. -/
theorem normalizeUncoreFreq_greatest_multiple_witness :
    1100001 < uintSize ∧ normalizeUncoreFreq 1100001 ≤ 1100001 ∧
    normalizeUncoreFreq 1100001 % 100000 = 0 :=
  ⟨by decide,
    (normalizeUncoreFreq_greatest_multiple 1100001 (by decide)).1,
    (normalizeUncoreFreq_greatest_multiple 1100001 (by decide)).2.1⟩

/-! ## `NewUncore` -/

theorem getFeatureIdError_ne_none_of_unsupported (set : FeatureSet) (id : Nat)
    (h : set.isFeatureIdSupported id = false) : set.getFeatureIdError id ≠ none := by
  unfold FeatureSet.isFeatureIdSupported at h
  unfold FeatureSet.getFeatureIdError
  cases hs : set id with
  | none => simp
  | some status =>
    rw [hs] at h
    cases he : status.err with
    | none => simp [he] at h
    | some e => simp [he]

theorem NewUncore_supported_of_ok (env : Env) (minFreq maxFreq : Nat)
    (hok : (NewUncore env minFreq maxFreq).2 = none) :
    env.featureList.isFeatureIdSupported env.UncoreFeature = true := by
  by_contra hns
  have hf : env.featureList.isFeatureIdSupported env.UncoreFeature = false := by
    simpa using hns
  have := getFeatureIdError_ne_none_of_unsupported _ _ hf
  simp [NewUncore, hf] at hok
  exact this hok

/-- C1: with the uncore feature supported and the vendor Intel or AMD, `NewUncore` returns a
non-nil `Uncore` and a nil error exactly when
`defaultUncore.min ≤ min ≤ max ≤ defaultUncore.max`, and a nil `Uncore` with a non-nil error
in every other case. -/
theorem NewUncore_ok_iff_in_range (env : Env) (minFreq maxFreq : Nat)
    (hsup : env.featureList.isFeatureIdSupported env.UncoreFeature = true)
    (hvendor : env.vendorID = .vendorIDIntel ∨ env.vendorID = .vendorIDAMD) :
    (((NewUncore env minFreq maxFreq).1 ≠ none ∧ (NewUncore env minFreq maxFreq).2 = none) ↔
      (env.defaultUncore.min ≤ minFreq ∧ minFreq ≤ maxFreq ∧
        maxFreq ≤ env.defaultUncore.max)) ∧
    (¬ (env.defaultUncore.min ≤ minFreq ∧ minFreq ≤ maxFreq ∧
        maxFreq ≤ env.defaultUncore.max) →
      (NewUncore env minFreq maxFreq).1 = none ∧ (NewUncore env minFreq maxFreq).2 ≠ none) := by
  rcases hvendor with hv | hv <;>
  · simp only [NewUncore, hsup, hv]
    by_cases h1 : minFreq < env.defaultUncore.min
    · simp [h1]
      try omega
    · by_cases h2 : maxFreq > env.defaultUncore.max
      · simp [h1, h2]
        try omega
      · by_cases h3 : maxFreq < minFreq
        · simp [h1, h2, h3]
          try omega
        · simp [h1, h2, h3]
          try omega

/-- The statement of C1 at the accepted request of `TestNewUncore`. -/
theorem NewUncore_ok_iff_in_range_witness :
    testEnvIntel.featureList.isFeatureIdSupported testEnvIntel.UncoreFeature = true ∧
    (testEnvIntel.vendorID = .vendorIDIntel ∨ testEnvIntel.vendorID = .vendorIDAMD) ∧
    (((NewUncore testEnvIntel 1400000 2200000).1 ≠ none ∧
        (NewUncore testEnvIntel 1400000 2200000).2 = none) ↔
      (testEnvIntel.defaultUncore.min ≤ 1400000 ∧ 1400000 ≤ 2200000 ∧
        2200000 ≤ testEnvIntel.defaultUncore.max)) :=
  ⟨by decide, Or.inl rfl,
    (NewUncore_ok_iff_in_range testEnvIntel 1400000 2200000 (by decide) (Or.inl rfl)).1⟩

/-- C5: for every `min` and `max` that `NewUncore` accepts, on Intel the returned
`uncoreFreq` stores `normalizeUncoreFreq min` and `normalizeUncoreFreq max` (with the
hardware range 1200000 to 2400000 the request 1400000, 2200000 is stored unchanged), and on
AMD it stores `min` and `max` as requested. -/
theorem NewUncore_stored_values (env : Env) (minFreq maxFreq : Nat)
    (hok : (NewUncore env minFreq maxFreq).2 = none) :
    (env.vendorID = .vendorIDIntel →
      (NewUncore env minFreq maxFreq).1 =
        some { min := normalizeUncoreFreq minFreq, max := normalizeUncoreFreq maxFreq }) ∧
    (env.vendorID = .vendorIDAMD →
      (NewUncore env minFreq maxFreq).1 = some { min := minFreq, max := maxFreq }) ∧
    NewUncore testEnvIntel 1400000 2200000 = (some { min := 1400000, max := 2200000 }, none) := by
  have hsup := NewUncore_supported_of_ok env minFreq maxFreq hok
  refine ⟨?_, ?_, by decide⟩
  · intro hv
    simp only [NewUncore, hsup, hv] at hok ⊢
    split_ifs at hok ⊢ <;> simp_all
  · intro hv
    simp only [NewUncore, hsup, hv] at hok ⊢
    split_ifs at hok ⊢ <;> simp_all

/-- The statement of C5 at the request 0, 2 on the AMD state of `TestNewUncore`. -/
theorem NewUncore_stored_values_witness :
    (NewUncore testEnvAMD 0 2).2 = none ∧
    (testEnvAMD.vendorID = .vendorIDAMD →
      (NewUncore testEnvAMD 0 2).1 = some { min := 0, max := 2 }) :=
  ⟨by decide, (NewUncore_stored_values testEnvAMD 0 2 (by decide)).2.1⟩

/-- C10: when the uncore slot of the registry is missing or carries an error, `NewUncore`
returns a nil `Uncore` together with exactly `featureList.getFeatureIdError(UncoreFeature)`,
which is non-nil, for every `min` and `max`; the vendor id and the hardware range play no
part, the check being made before they are looked at. -/
theorem NewUncore_unsupported (env : Env) (minFreq maxFreq : Nat)
    (hslot : env.featureList env.UncoreFeature = none ∨
      ∃ status e, env.featureList env.UncoreFeature = some status ∧ status.err = some e) :
    NewUncore env minFreq maxFreq =
      (none, env.featureList.getFeatureIdError env.UncoreFeature) ∧
    env.featureList.getFeatureIdError env.UncoreFeature ≠ none ∧
    (∀ (vendor : VendorID) (hw : uncoreFreq),
      NewUncore { env with vendorID := vendor, defaultUncore := hw } minFreq maxFreq =
        NewUncore env minFreq maxFreq) := by
  have hns : env.featureList.isFeatureIdSupported env.UncoreFeature = false := by
    rcases hslot with h | ⟨status, e, h, he⟩
    · simp [FeatureSet.isFeatureIdSupported, h]
    · simp [FeatureSet.isFeatureIdSupported, h, he]
  refine ⟨by simp [NewUncore, hns], ?_, ?_⟩
  · rcases hslot with h | ⟨status, e, h, he⟩
    · simp [FeatureSet.getFeatureIdError, h]
    · simp [FeatureSet.getFeatureIdError, h, he]
  · intro vendor hw
    simp [NewUncore, hns]

/-- The statement of C10 at the last call of `TestNewUncore`, the slot carrying an
error. -/
theorem NewUncore_unsupported_witness :
    (testEnvUnsupported.featureList testEnvUnsupported.UncoreFeature = none ∨
      ∃ status e, testEnvUnsupported.featureList testEnvUnsupported.UncoreFeature = some status ∧
        status.err = some e) ∧
    NewUncore testEnvUnsupported 1 2 =
      (none, testEnvUnsupported.featureList.getFeatureIdError testEnvUnsupported.UncoreFeature) :=
  ⟨Or.inr ⟨_, _, rfl, rfl⟩,
    (NewUncore_unsupported testEnvUnsupported 1 2 (Or.inr ⟨_, _, rfl, rfl⟩)).1⟩

/-! ## Inheritance -/

/-- C3: inheritance rule I1. For every die `d` of a package `c` of a topology `s`,
`getEffectiveUncore` on `d` is `d`'s own override when that is non-nil; otherwise the override
of `c` when that is non-nil; otherwise the override of `s` when that is non-nil; otherwise
the hardware default `defaultUncore`. -/
theorem getEffectiveUncore_inheritance (env : Env) (s : cpuTopology) (c : cpuPackage)
    (d : cpuDie) :
    (∀ u, d.uncore = some u → d.getEffectiveUncore env s c = u) ∧
    (d.uncore = none → ∀ u, c.uncore = some u → d.getEffectiveUncore env s c = u) ∧
    (d.uncore = none → c.uncore = none → ∀ u, s.uncore = some u →
      d.getEffectiveUncore env s c = u) ∧
    (d.uncore = none → c.uncore = none → s.uncore = none →
      d.getEffectiveUncore env s c = env.defaultUncore) := by
  refine ⟨?_, ?_, ?_, ?_⟩
  · intro u hd
    simp [cpuDie.getEffectiveUncore, hd]
  · intro hd u hc
    simp [cpuDie.getEffectiveUncore, cpuPackage.getEffectiveUncore, hd, hc]
  · intro hd hc u hs
    simp [cpuDie.getEffectiveUncore, cpuPackage.getEffectiveUncore,
      cpuTopology.getEffectiveUncore, hd, hc, hs]
  · intro hd hc hs
    simp [cpuDie.getEffectiveUncore, cpuPackage.getEffectiveUncore,
      cpuTopology.getEffectiveUncore, hd, hc, hs]

/-! ## The apply walk -/

theorem rangeApply_cons_none {α : Type} (apply : α → World → World × Option GoError)
    (x : α) (rest : List α) (w w1 : World) (h : apply x w = (w1, none)) :
    rangeApply apply (x :: rest) w = rangeApply apply rest w1 := by
  simp [rangeApply, h]

theorem rangeApply_cons_some {α : Type} (apply : α → World → World × Option GoError)
    (x : α) (rest : List α) (w w1 : World) (e : GoError) (h : apply x w = (w1, some e)) :
    rangeApply apply (x :: rest) w = (w1, some e) := by
  simp [rangeApply, h]

/-- The walk returns nil exactly when every element, applied in its turn, returns nil. -/
theorem rangeApply_none_iff {α : Type} (apply : α → World → World × Option GoError)
    (xs : List α) (w : World) :
    (rangeApply apply xs w).2 = none ↔
      ∀ k x, xs[k]? = some x → (apply x (rangeApply apply (xs.take k) w).1).2 = none := by
  induction xs generalizing w with
  | nil => simp [rangeApply]
  | cons x rest ih =>
    rcases hx : apply x w with ⟨w1, _ | e⟩
    · rw [rangeApply_cons_none apply x rest w w1 hx, ih w1]
      constructor
      · intro h k y hk
        cases k with
        | zero =>
          simp at hk
          subst hk
          simp [rangeApply, hx]
        | succ k =>
          simp at hk
          rw [List.take_succ_cons, rangeApply_cons_none apply x _ w w1 hx]
          exact h k y hk
      · intro h k y hk
        have := h (k + 1) y (by simpa using hk)
        rw [List.take_succ_cons, rangeApply_cons_none apply x _ w w1 hx] at this
        exact this
    · rw [rangeApply_cons_some apply x rest w w1 e hx]
      constructor
      · intro h
        simp at h
      · intro h
        have := h 0 x (by simp)
        simp [rangeApply, hx] at this

/-- A failing walk stops at its first failing element: the error is that element's, the
elements before it returned nil, and the outcome is that of the walk cut after it. -/
theorem rangeApply_first_error {α : Type} (apply : α → World → World × Option GoError)
    (xs : List α) (w : World) (e : GoError) (he : (rangeApply apply xs w).2 = some e) :
    ∃ k x, xs[k]? = some x ∧
      (∀ j y, j < k → xs[j]? = some y →
        (apply y (rangeApply apply (xs.take j) w).1).2 = none) ∧
      apply x (rangeApply apply (xs.take k) w).1 = ((rangeApply apply xs w).1, some e) ∧
      rangeApply apply xs w = rangeApply apply (xs.take (k + 1)) w := by
  induction xs generalizing w with
  | nil => simp [rangeApply] at he
  | cons x rest ih =>
    rcases hx : apply x w with ⟨w1, _ | e1⟩
    · rw [rangeApply_cons_none apply x rest w w1 hx] at he
      obtain ⟨k, y, hk, hpre, hfail, hcut⟩ := ih w1 he
      refine ⟨k + 1, y, by simpa using hk, ?_, ?_, ?_⟩
      · intro j z hj hz
        cases j with
        | zero =>
          simp at hz
          subst hz
          simp [rangeApply, hx]
        | succ j =>
          simp at hz
          rw [List.take_succ_cons, rangeApply_cons_none apply x _ w w1 hx]
          exact hpre j z (by omega) hz
      · rw [List.take_succ_cons, rangeApply_cons_none apply x _ w w1 hx,
          rangeApply_cons_none apply x rest w w1 hx]
        exact hfail
      · rw [rangeApply_cons_none apply x rest w w1 hx, List.take_succ_cons,
          rangeApply_cons_none apply x _ w w1 hx]
        exact hcut
    · rw [rangeApply_cons_some apply x rest w w1 e1 hx] at he
      simp at he
      subst he
      refine ⟨0, x, by simp, ?_, ?_, ?_⟩
      · intro j y hj
        omega
      · simp [rangeApply, hx]
      · simp [rangeApply, hx]

/-- C7: the apply walk is fail-fast, at the topology level over the packages and at the
package level over the dies, each child being applied in the state its predecessors left.
The walk returns nil exactly when every child returns nil; when it returns an error `e`,
some child `x` at position `k` returned exactly `e`, every child before position `k`
returned nil, the state after the walk is the state right after `x` (the writes of the
children before it are kept), and the walk equals the walk over the first `k + 1` children
only (no later child is applied). -/
theorem applyUncore_fail_fast (env : Env) (cgoAmd64 : Bool) (s : cpuTopology)
    (c : cpuPackage) (w : World) :
    (((s.applyUncore env cgoAmd64 w).2 = none ↔
        ∀ (k : Nat) (pkg : cpuPackage), s.packages[k]? = some pkg →
          (pkg.applyUncore env cgoAmd64 s
            (rangeApply (fun p => p.applyUncore env cgoAmd64 s) (s.packages.take k) w).1).2
            = none) ∧
      (∀ e, (s.applyUncore env cgoAmd64 w).2 = some e →
        ∃ (k : Nat) (pkg : cpuPackage), s.packages[k]? = some pkg ∧
          (∀ (j : Nat) (p : cpuPackage), j < k → s.packages[j]? = some p →
            (p.applyUncore env cgoAmd64 s
              (rangeApply (fun p => p.applyUncore env cgoAmd64 s) (s.packages.take j) w).1).2
              = none) ∧
          pkg.applyUncore env cgoAmd64 s
            (rangeApply (fun p => p.applyUncore env cgoAmd64 s) (s.packages.take k) w).1
            = ((s.applyUncore env cgoAmd64 w).1, some e) ∧
          s.applyUncore env cgoAmd64 w =
            rangeApply (fun p => p.applyUncore env cgoAmd64 s) (s.packages.take (k + 1)) w)) ∧
    (((c.applyUncore env cgoAmd64 s w).2 = none ↔
        ∀ (k : Nat) (die : cpuDie), c.dies[k]? = some die →
          (die.applyUncore env cgoAmd64 s c
            (rangeApply (fun d => d.applyUncore env cgoAmd64 s c) (c.dies.take k) w).1).2
            = none) ∧
      (∀ e, (c.applyUncore env cgoAmd64 s w).2 = some e →
        ∃ (k : Nat) (die : cpuDie), c.dies[k]? = some die ∧
          (∀ (j : Nat) (d : cpuDie), j < k → c.dies[j]? = some d →
            (d.applyUncore env cgoAmd64 s c
              (rangeApply (fun d => d.applyUncore env cgoAmd64 s c) (c.dies.take j) w).1).2
              = none) ∧
          die.applyUncore env cgoAmd64 s c
            (rangeApply (fun d => d.applyUncore env cgoAmd64 s c) (c.dies.take k) w).1
            = ((c.applyUncore env cgoAmd64 s w).1, some e) ∧
          c.applyUncore env cgoAmd64 s w =
            rangeApply (fun d => d.applyUncore env cgoAmd64 s c) (c.dies.take (k + 1)) w)) := by
  refine ⟨⟨?_, ?_⟩, ⟨?_, ?_⟩⟩
  · exact rangeApply_none_iff (fun p => p.applyUncore env cgoAmd64 s) s.packages w
  · intro e he
    exact rangeApply_first_error (fun (p : cpuPackage) => p.applyUncore env cgoAmd64 s)
      s.packages w e he
  · exact rangeApply_none_iff (fun d => d.applyUncore env cgoAmd64 s c) c.dies w
  · intro e he
    exact rangeApply_first_error (fun (d : cpuDie) => d.applyUncore env cgoAmd64 s c)
      c.dies w e he

/-! ## The AMD backend -/

/-- C9, as stated, fails: with `min = 0` and `max = 256` the claim has `write` call
`esmi_df_pstate_range_set(0, 0, 256)`, but the conversion to `C.uint8_t` makes the call
`esmi_df_pstate_range_set(0, 0, 0)`. -/
theorem write_AMD_call_counterexample :
    ((uncoreFreq.mk 0 256).write testEnvAMD true 0 0 testWorldAMD).1.esmiCalls
      = [EsmiCall.esmi_df_pstate_range_set 0 0 0] ∧
    ((uncoreFreq.mk 0 256).write testEnvAMD true 0 0 testWorldAMD).1.esmiCalls
      ≠ [EsmiCall.esmi_df_pstate_range_set 0 0 256] := by
  decide

/-- C9, amended: on an AMD host (build linux, amd64, cgo) with the uncore feature supported,
`u.write(p, d)` issues exactly one backend call and touches no file; the call is
`esmi_apb_disable(p mod 2^32, u.min mod 2^8)` when `u.min = u.max` and
`esmi_df_pstate_range_set(p mod 2^8, u.min mod 2^8, u.max mod 2^8)` otherwise, which for
`p`, `u.min`, `u.max` below 256 is `esmi_apb_disable(p, u.min)` and
`esmi_df_pstate_range_set(p, u.min, u.max)`; the result does not depend on `d`; `write`
returns nil exactly when the status of that call is 0. -/
theorem write_AMD_backend_call (env : Env) (u : uncoreFreq) (pkgId dieId : Nat) (w : World)
    (hsup : env.featureList.isFeatureIdSupported env.UncoreFeature = true)
    (hvendor : env.vendorID = .vendorIDAMD) :
    (u.write env true pkgId dieId w).1.esmiCalls = w.esmiCalls ++
      [if u.min = u.max then EsmiCall.esmi_apb_disable (pkgId % 2 ^ 32) (u.min % 2 ^ 8)
        else EsmiCall.esmi_df_pstate_range_set (pkgId % 2 ^ 8) (u.min % 2 ^ 8) (u.max % 2 ^ 8)] ∧
    (u.write env true pkgId dieId w).1.files = w.files ∧
    (u.write env true pkgId dieId w).1.dirs = w.dirs ∧
    (u.write env true pkgId dieId w).1.writes = w.writes ∧
    (∀ dieId2, u.write env true pkgId dieId2 w = u.write env true pkgId dieId w) ∧
    ((u.write env true pkgId dieId w).2 = none ↔
      w.esmiStatus w.esmiCalls
        (if u.min = u.max then EsmiCall.esmi_apb_disable (pkgId % 2 ^ 32) (u.min % 2 ^ 8)
          else EsmiCall.esmi_df_pstate_range_set (pkgId % 2 ^ 8) (u.min % 2 ^ 8) (u.max % 2 ^ 8))
        = 0) ∧
    (pkgId < 256 → u.min < 256 → u.max < 256 →
      (u.write env true pkgId dieId w).1.esmiCalls = w.esmiCalls ++
        [if u.min = u.max then EsmiCall.esmi_apb_disable pkgId u.min
          else EsmiCall.esmi_df_pstate_range_set pkgId u.min u.max]) := by
  have hw : ∀ die, u.write env true pkgId die w = u.writeAMD pkgId w := by
    intro die
    simp [uncoreFreq.write, hsup, hvendor]
  rw [hw dieId]
  obtain ⟨mn, mx⟩ := u
  by_cases hmm : mn = mx
  · subst hmm
    by_cases hst : w.esmiStatus w.esmiCalls
        (EsmiCall.esmi_apb_disable (pkgId % 4294967296) (mn % 256)) = 0
    all_goals
      refine ⟨?_, ?_, ?_, ?_, ?_, ?_, ?_⟩
      all_goals simp [uncoreFreq.writeAMD, World.esmi, toUint8, toUint32, hst, hw]
      all_goals
        intro h1 h2
        omega
  · by_cases hst : w.esmiStatus w.esmiCalls
        (EsmiCall.esmi_df_pstate_range_set (pkgId % 256) (mn % 256) (mx % 256)) = 0
    all_goals
      refine ⟨?_, ?_, ?_, ?_, ?_, ?_, ?_⟩
      all_goals simp [uncoreFreq.writeAMD, World.esmi, toUint8, toUint32, hmm, hst, hw]
      all_goals
        intro h1 h2 h3
        omega

/-- The amended statement of C9 at the two AMD scenarios: 2, 2 and 0, 2 on package 0. -/
theorem write_AMD_backend_call_witness :
    testEnvAMD.featureList.isFeatureIdSupported testEnvAMD.UncoreFeature = true ∧
    testEnvAMD.vendorID = .vendorIDAMD ∧
    ((uncoreFreq.mk 2 2).write testEnvAMD true 0 0 testWorldAMD).1.esmiCalls
      = testWorldAMD.esmiCalls ++ [EsmiCall.esmi_apb_disable 0 2] ∧
    ((uncoreFreq.mk 0 2).write testEnvAMD true 0 0 testWorldAMD).1.esmiCalls
      = testWorldAMD.esmiCalls ++ [EsmiCall.esmi_df_pstate_range_set 0 0 2] :=
  ⟨by decide, rfl,
    (write_AMD_backend_call testEnvAMD (uncoreFreq.mk 2 2) 0 0 testWorldAMD
      (by decide) rfl).2.2.2.2.2.2 (by decide) (by decide) (by decide),
    (write_AMD_backend_call testEnvAMD (uncoreFreq.mk 0 2) 0 0 testWorldAMD
      (by decide) rfl).2.2.2.2.2.2 (by decide) (by decide) (by decide)⟩

/-! ## `SetUncore` -/

/-- C6: `SetUncore` at each of the three levels, for every `Uncore` value (nil included).
After the call the override field of the receiver is the value given, whatever the walk
returned; every other field of the tree, the override of every other node among them, is
as before; and the state and error returned are those of the receiver's `applyUncore`, run
on the updated tree. The receiver of the package method is the package `c` at position `i`,
the receiver of the die method the die `d` at position `j` of `c`. -/
theorem SetUncore_sets_field_and_applies (env : Env) (cgoAmd64 : Bool) (s : cpuTopology)
    (uncore : Uncore) (w : World) (i j : Nat) (c : cpuPackage) (d : cpuDie)
    (hc : s.packages[i]? = some c) (hd : c.dies[j]? = some d) :
    ((s.SetUncore env cgoAmd64 uncore w).1.uncore = uncore ∧
      (s.SetUncore env cgoAmd64 uncore w).1.packages = s.packages ∧
      (s.SetUncore env cgoAmd64 uncore w).2 =
        (s.SetUncore env cgoAmd64 uncore w).1.applyUncore env cgoAmd64 w) ∧
    (∃ s1 c1, cpuPackage.SetUncore s i env cgoAmd64 uncore w =
        some (s1, c1.applyUncore env cgoAmd64 s1 w) ∧
      s1.packages[i]? = some c1 ∧ c1.uncore = uncore ∧ c1.id = c.id ∧ c1.dies = c.dies ∧
      s1.uncore = s.uncore ∧ s1.packages.length = s.packages.length ∧
      (∀ k, k ≠ i → s1.packages[k]? = s.packages[k]?)) ∧
    (∃ s1 c1 d1, cpuDie.SetUncore s i j env cgoAmd64 uncore w =
        some (s1, d1.applyUncore env cgoAmd64 s1 c1 w) ∧
      s1.packages[i]? = some c1 ∧ c1.dies[j]? = some d1 ∧
      d1.uncore = uncore ∧ d1.id = d.id ∧
      c1.uncore = c.uncore ∧ c1.id = c.id ∧ c1.dies.length = c.dies.length ∧
      (∀ k, k ≠ j → c1.dies[k]? = c.dies[k]?) ∧
      s1.uncore = s.uncore ∧ s1.packages.length = s.packages.length ∧
      (∀ k, k ≠ i → s1.packages[k]? = s.packages[k]?)) := by
  have hi : i < s.packages.length := (List.getElem?_eq_some.mp hc).1
  have hj : j < c.dies.length := (List.getElem?_eq_some.mp hd).1
  refine ⟨⟨rfl, rfl, rfl⟩, ?_, ?_⟩
  · refine ⟨{ s with packages := s.packages.set i ({ c with uncore := uncore }) },
      { c with uncore := uncore }, ?_, ?_, rfl, rfl, rfl, rfl, ?_, ?_⟩
    · simp [cpuPackage.SetUncore, hc]
    · simp [List.getElem?_set, hi]
    · simp
    · intro k hk
      simp [List.getElem?_set, Ne.symm hk]
  · refine ⟨{ s with packages :=
        (s.packages.set i ({ c with dies := c.dies.set j ({ d with uncore := uncore }) })) },
      { c with dies := c.dies.set j ({ d with uncore := uncore }) },
      { d with uncore := uncore }, ?_, ?_, ?_, rfl, rfl, rfl, rfl, ?_, ?_, rfl, ?_, ?_⟩
    · simp [cpuDie.SetUncore, hc, hd]
    · simp [List.getElem?_set, hi]
    · simp [List.getElem?_set, hj]
    · simp
    · intro k hk
      simp [List.getElem?_set, Ne.symm hk]
    · simp
    · intro k hk
      simp [List.getElem?_set, Ne.symm hk]

/-- The statement of C6 at a walk that fails, the second package having no directory: the
error is returned and the field is set all the same. -/
theorem SetUncore_sets_field_and_applies_witness :
    testTopologyMissing.packages[1]? = some ⟨2, none, [⟨3, none⟩]⟩ ∧
    (⟨2, none, [⟨3, none⟩]⟩ : cpuPackage).dies[0]? = some ⟨3, none⟩ ∧
    (testTopologyMissing.SetUncore testEnvIntel true (some ⟨1400000, 2200000⟩)
      testWorldWrite).2.2 ≠ none ∧
    (testTopologyMissing.SetUncore testEnvIntel true (some ⟨1400000, 2200000⟩)
      testWorldWrite).1.uncore = some ⟨1400000, 2200000⟩ :=
  ⟨by decide, by decide, by decide,
    (SetUncore_sets_field_and_applies testEnvIntel true testTopologyMissing
      (some ⟨1400000, 2200000⟩) testWorldWrite 1 0 ⟨2, none, [⟨3, none⟩]⟩ ⟨3, none⟩
      (by decide) (by decide)).1.1⟩

/-! ## What the Intel writer does to the world -/

theorem WriteFile_cases (w : World) (p data : String) :
    ((w.WriteFile p data).2 = none ∧
      (w.WriteFile p data).1 =
        { w with files := (p, data) :: w.files, writes := w.writes ++ [(p, data)] }) ∨
    ((w.WriteFile p data).2 ≠ none ∧ (w.WriteFile p data).1 = w) := by
  unfold World.WriteFile
  split_ifs <;> simp

/-- The outcomes of `writeIntel`: both files written; nothing written; or only
`max_freq_khz` written, the write of `min_freq_khz` having failed. -/
theorem writeIntel_cases (u : uncoreFreq) (env : Env) (pkgId dieId : Nat) (w : World) :
    ((u.writeIntel env pkgId dieId w).2 = none ∧
      (u.writeIntel env pkgId dieId w).1 =
        { w with
          files := (uncoreFilePath env pkgId dieId intelUncoreMinFreqFile, fmtUint u.min) ::
            (uncoreFilePath env pkgId dieId intelUncoreMaxFreqFile, fmtUint u.max) :: w.files,
          writes := w.writes ++
            [(uncoreFilePath env pkgId dieId intelUncoreMaxFreqFile, fmtUint u.max),
             (uncoreFilePath env pkgId dieId intelUncoreMinFreqFile, fmtUint u.min)] }) ∨
    ((u.writeIntel env pkgId dieId w).2 ≠ none ∧ (u.writeIntel env pkgId dieId w).1 = w) ∨
    ((u.writeIntel env pkgId dieId w).2 ≠ none ∧
      (u.writeIntel env pkgId dieId w).1 =
        { w with
          files := (uncoreFilePath env pkgId dieId intelUncoreMaxFreqFile, fmtUint u.max) ::
            w.files,
          writes := w.writes ++
            [(uncoreFilePath env pkgId dieId intelUncoreMaxFreqFile, fmtUint u.max)] }) := by
  unfold uncoreFreq.writeIntel uncoreFilePath
  rcases hr : w.WriteFile
      (pathJoin [env.basePath, intelUncorePath pkgId dieId, intelUncoreMaxFreqFile])
      (fmtUint u.max) with ⟨w1, e1⟩
  have c1 := WriteFile_cases w
      (pathJoin [env.basePath, intelUncorePath pkgId dieId, intelUncoreMaxFreqFile])
      (fmtUint u.max)
  rw [hr] at c1
  cases e1 with
  | some e =>
    right
    left
    rcases c1 with ⟨h1, _⟩ | ⟨_, h2⟩
    · simp at h1
    · simp only at h2
      simp [h2]
  | none =>
    rcases c1 with ⟨_, h2⟩ | ⟨h1, _⟩
    swap
    · simp at h1
    simp only at h2
    dsimp only
    rcases hr2 : w1.WriteFile
        (pathJoin [env.basePath, intelUncorePath pkgId dieId, intelUncoreMinFreqFile])
        (fmtUint u.min) with ⟨w2, e2⟩
    have c2 := WriteFile_cases w1
        (pathJoin [env.basePath, intelUncorePath pkgId dieId, intelUncoreMinFreqFile])
        (fmtUint u.min)
    rw [hr2] at c2
    cases e2 with
    | some e =>
      right
      right
      rcases c2 with ⟨h3, _⟩ | ⟨_, h4⟩
      · simp at h3
      · simp only at h4
        simp [h4, h2]
    | none =>
      left
      rcases c2 with ⟨_, h4⟩ | ⟨h3, _⟩
      swap
      · simp at h3
      simp only at h4
      simp [h4, h2]

theorem write_intel_eq (u : uncoreFreq) (env : Env) (cgoAmd64 : Bool) (pkgId dieId : Nat)
    (w : World) (hsup : env.featureList.isFeatureIdSupported env.UncoreFeature = true)
    (hv : env.vendorID = .vendorIDIntel) :
    u.write env cgoAmd64 pkgId dieId w = u.writeIntel env pkgId dieId w := by
  simp [uncoreFreq.write, hsup, hv]

theorem write_unsupported_eq (u : uncoreFreq) (env : Env) (cgoAmd64 : Bool) (pkgId dieId : Nat)
    (w : World) (hsup : env.featureList.isFeatureIdSupported env.UncoreFeature = false) :
    u.write env cgoAmd64 pkgId dieId w = (w, none) := by
  simp [uncoreFreq.write, hsup]

/-- On Intel, `write` adds to the trace of writes at most the two entries of its die. -/
theorem write_intel_writes (u : uncoreFreq) (env : Env) (cgoAmd64 : Bool) (pkgId dieId : Nat)
    (w : World) (hv : env.vendorID = .vendorIDIntel) :
    ∃ new, (u.write env cgoAmd64 pkgId dieId w).1.writes = w.writes ++ new ∧
      ∀ e ∈ new,
        e = (uncoreFilePath env pkgId dieId intelUncoreMaxFreqFile, fmtUint u.max) ∨
        e = (uncoreFilePath env pkgId dieId intelUncoreMinFreqFile, fmtUint u.min) := by
  by_cases hsup : env.featureList.isFeatureIdSupported env.UncoreFeature = true
  · rw [write_intel_eq u env cgoAmd64 pkgId dieId w hsup hv]
    rcases writeIntel_cases u env pkgId dieId w with ⟨_, h⟩ | ⟨_, h⟩ | ⟨_, h⟩
    · exact ⟨[(uncoreFilePath env pkgId dieId intelUncoreMaxFreqFile, fmtUint u.max),
        (uncoreFilePath env pkgId dieId intelUncoreMinFreqFile, fmtUint u.min)],
        by rw [h], by simp⟩
    · exact ⟨[], by simp [h], by simp⟩
    · exact ⟨[(uncoreFilePath env pkgId dieId intelUncoreMaxFreqFile, fmtUint u.max)],
        by rw [h], by simp⟩
  · simp only [Bool.not_eq_true] at hsup
    rw [write_unsupported_eq u env cgoAmd64 pkgId dieId w hsup]
    exact ⟨[], by simp, by simp⟩

/-- A walk adds to the trace of writes only entries that one of its children adds. -/
theorem rangeApply_writes {α : Type} (apply : α → World → World × Option GoError)
    (P : String × String → Prop) (xs : List α)
    (h : ∀ x ∈ xs, ∀ w, ∃ new, (apply x w).1.writes = w.writes ++ new ∧ ∀ e ∈ new, P e)
    (w : World) :
    ∃ new, (rangeApply apply xs w).1.writes = w.writes ++ new ∧ ∀ e ∈ new, P e := by
  induction xs generalizing w with
  | nil => exact ⟨[], by simp [rangeApply], by simp⟩
  | cons x rest ih =>
    obtain ⟨n1, hn1, hp1⟩ := h x (by simp) w
    rcases hx : apply x w with ⟨w1, _ | e⟩
    · rw [rangeApply_cons_none apply x rest w w1 hx]
      rw [hx] at hn1
      obtain ⟨n2, hn2, hp2⟩ := ih (fun y hy => h y (by simp [hy])) w1
      refine ⟨n1 ++ n2, ?_, ?_⟩
      · rw [hn2, hn1, List.append_assoc]
      · intro e he
        rcases List.mem_append.mp he with he | he
        · exact hp1 e he
        · exact hp2 e he
    · rw [rangeApply_cons_some apply x rest w w1 e hx]
      rw [hx] at hn1
      exact ⟨n1, hn1, hp1⟩

/-- What `NewUncore` returns on Intel holds multiples of 100000. -/
theorem nilOrFromNewUncoreIntel_normalized (u : uncoreFreq)
    (h : nilOrFromNewUncoreIntel (some u)) : u.max % 100000 = 0 ∧ u.min % 100000 = 0 := by
  rcases h with h | ⟨env0, mn, mx, hv, hmn, hmx, hnew⟩
  · simp at h
  · have hok : (NewUncore env0 mn mx).2 = none := by rw [hnew]
    have hsup := NewUncore_supported_of_ok env0 mn mx hok
    simp only [NewUncore, hsup, hv] at hnew
    split_ifs at hnew <;> simp at hnew
    subst hnew
    exact ⟨normalizeUncoreFreq_mod mx hmx, normalizeUncoreFreq_mod mn hmn⟩

/-- C4, as stated, fails. After `initIntelUncore` has run on the directory tree of
`Test_initUncore` (initial frequencies 999 and 100), a walk over a topology without any
override writes the hardware default as it was read: the trace holds the decimal text of
999, which is no multiple of 100000. -/
theorem applyUncore_default_counterexample :
    testEnv.vendorID = .vendorIDIntel ∧
    (initIntelUncore testEnv testWorldInit).2 = none ∧
    nilOrFromNewUncoreIntel testTopologyOne.uncore ∧
    (∀ c ∈ testTopologyOne.packages, nilOrFromNewUncoreIntel c.uncore ∧
      ∀ d ∈ c.dies, nilOrFromNewUncoreIntel d.uncore) ∧
    ¬ (∀ e ∈ (testTopologyOne.applyUncore (initIntelUncore testEnv testWorldInit).1 true
          testWorldInit).1.writes,
        ∃ f, e.2 = fmtUint f ∧ f % 100000 = 0) := by
  refine ⟨rfl, by decide, Or.inl rfl, ?_, ?_⟩
  · intro c hc
    simp [testTopologyOne] at hc
    subst hc
    refine ⟨Or.inl rfl, ?_⟩
    intro d hd
    simp at hd
    subst hd
    exact Or.inl rfl
  · intro h
    have hmem : ("testing/cpus/intel_uncore_frequency/package_00_die_00/max_freq_khz",
        fmtUint 999) ∈ (testTopologyOne.applyUncore (initIntelUncore testEnv testWorldInit).1
          true testWorldInit).1.writes := by
      decide
    obtain ⟨f, hf, hmod⟩ := h _ hmem
    have := fmtUint_injective _ _ hf
    omega

/-- C4, amended. On an Intel host, with every override of the tree nil or produced by
`NewUncore`, each entry an apply walk adds to the trace of writes is, for some die `d` of
some package `c` of the tree, the decimal text of the maximum of `d`'s effective uncore
written to `d`'s `max_freq_khz`, or of its minimum written to `d`'s `min_freq_khz`. When
`d`, `c` or the topology carries an override, both values are multiples of 100000. When
none does, the effective uncore is `defaultUncore`, whose values are written as they
are. -/
theorem applyUncore_intel_written_values (env : Env) (cgoAmd64 : Bool) (s : cpuTopology)
    (w : World) (hv : env.vendorID = .vendorIDIntel)
    (hs : nilOrFromNewUncoreIntel s.uncore)
    (hc : ∀ c ∈ s.packages, nilOrFromNewUncoreIntel c.uncore)
    (hd : ∀ c ∈ s.packages, ∀ d ∈ c.dies, nilOrFromNewUncoreIntel d.uncore) :
    ∃ new, (s.applyUncore env cgoAmd64 w).1.writes = w.writes ++ new ∧
      ∀ e ∈ new, ∃ c ∈ s.packages, ∃ d ∈ c.dies,
        (e = (uncoreFilePath env c.id d.id intelUncoreMaxFreqFile,
              fmtUint (d.getEffectiveUncore env s c).max) ∨
          e = (uncoreFilePath env c.id d.id intelUncoreMinFreqFile,
              fmtUint (d.getEffectiveUncore env s c).min)) ∧
        ((d.uncore ≠ none ∨ c.uncore ≠ none ∨ s.uncore ≠ none) →
          (d.getEffectiveUncore env s c).max % 100000 = 0 ∧
          (d.getEffectiveUncore env s c).min % 100000 = 0) ∧
        (d.uncore = none → c.uncore = none → s.uncore = none →
          d.getEffectiveUncore env s c = env.defaultUncore) := by
  unfold cpuTopology.applyUncore
  apply rangeApply_writes
  intro c hcm w1
  have := rangeApply_writes (fun (die : cpuDie) => die.applyUncore env cgoAmd64 s c)
    (fun e => ∃ d ∈ c.dies,
        (e = (uncoreFilePath env c.id d.id intelUncoreMaxFreqFile,
              fmtUint (d.getEffectiveUncore env s c).max) ∨
          e = (uncoreFilePath env c.id d.id intelUncoreMinFreqFile,
              fmtUint (d.getEffectiveUncore env s c).min)) ∧
        ((d.uncore ≠ none ∨ c.uncore ≠ none ∨ s.uncore ≠ none) →
          (d.getEffectiveUncore env s c).max % 100000 = 0 ∧
          (d.getEffectiveUncore env s c).min % 100000 = 0) ∧
        (d.uncore = none → c.uncore = none → s.uncore = none →
          d.getEffectiveUncore env s c = env.defaultUncore))
    c.dies ?_ w1
  · obtain ⟨new, hnew, hP⟩ := this
    exact ⟨new, hnew, fun e he => ⟨c, hcm, hP e he⟩⟩
  · intro d hdm w2
    obtain ⟨new, hnew, hP⟩ := write_intel_writes (d.getEffectiveUncore env s c) env cgoAmd64
      c.id d.id w2 hv
    refine ⟨new, hnew, fun e he => ⟨d, hdm, hP e he, ?_, ?_⟩⟩
    · intro hover
      cases hdu : d.uncore with
      | some u =>
        have := nilOrFromNewUncoreIntel_normalized u (hdu ▸ hd c hcm d hdm)
        simpa [cpuDie.getEffectiveUncore, hdu] using this
      | none =>
        cases hcu : c.uncore with
        | some u =>
          have := nilOrFromNewUncoreIntel_normalized u (hcu ▸ hc c hcm)
          simpa [cpuDie.getEffectiveUncore, cpuPackage.getEffectiveUncore, hdu, hcu] using this
        | none =>
          cases hsu : s.uncore with
          | some u =>
            have := nilOrFromNewUncoreIntel_normalized u (hsu ▸ hs)
            simpa [cpuDie.getEffectiveUncore, cpuPackage.getEffectiveUncore,
              cpuTopology.getEffectiveUncore, hdu, hcu, hsu] using this
          | none => simp [hdu, hcu, hsu] at hover
    · intro hdu hcu hsu
      simp [cpuDie.getEffectiveUncore, cpuPackage.getEffectiveUncore,
        cpuTopology.getEffectiveUncore, hdu, hcu, hsu]

/-- The amended statement of C4 at a two-package topology with a topology-level
override. -/
theorem applyUncore_intel_written_values_witness :
    ∃ new, (testTopologySet.applyUncore testEnvIntel true testWorldWrite).1.writes
        = testWorldWrite.writes ++ new ∧
      ∀ e ∈ new, ∃ c ∈ testTopologySet.packages, ∃ d ∈ c.dies,
        (e = (uncoreFilePath testEnvIntel c.id d.id intelUncoreMaxFreqFile,
              fmtUint (d.getEffectiveUncore testEnvIntel testTopologySet c).max) ∨
          e = (uncoreFilePath testEnvIntel c.id d.id intelUncoreMinFreqFile,
              fmtUint (d.getEffectiveUncore testEnvIntel testTopologySet c).min)) ∧
        ((d.uncore ≠ none ∨ c.uncore ≠ none ∨ testTopologySet.uncore ≠ none) →
          (d.getEffectiveUncore testEnvIntel testTopologySet c).max % 100000 = 0 ∧
          (d.getEffectiveUncore testEnvIntel testTopologySet c).min % 100000 = 0) ∧
        (d.uncore = none → c.uncore = none → testTopologySet.uncore = none →
          d.getEffectiveUncore testEnvIntel testTopologySet c = testEnvIntel.defaultUncore) :=
  applyUncore_intel_written_values testEnvIntel true testTopologySet testWorldWrite rfl
    (Or.inr ⟨testEnvIntel, 1400000, 2200000, rfl, by decide, by decide, by decide⟩)
    (by
      intro c hc
      simp [testTopologySet, testTopology] at hc
      rcases hc with rfl | rfl <;> exact Or.inl rfl)
    (by
      intro c hc d hd
      simp [testTopologySet, testTopology] at hc
      rcases hc with rfl | rfl <;>
      · simp at hd
        subst hd
        exact Or.inl rfl)

/-! ## Files after a successful walk -/

theorem lookupFile_cons (p data q : String) (files : List (String × String)) :
    lookupFile ((p, data) :: files) q = if p = q then some data else lookupFile files q := by
  simp only [lookupFile, List.find?_cons]
  by_cases h : p = q <;> simp [h]

/-- A die's `applyUncore` leaves the content of every file other than its own two. -/
theorem die_apply_frame (env : Env) (cgoAmd64 : Bool) (s : cpuTopology) (c : cpuPackage)
    (d : cpuDie) (w : World) (hv : env.vendorID = .vendorIDIntel) (q : String)
    (hq1 : q ≠ uncoreFilePath env c.id d.id intelUncoreMaxFreqFile)
    (hq2 : q ≠ uncoreFilePath env c.id d.id intelUncoreMinFreqFile) :
    (d.applyUncore env cgoAmd64 s c w).1.readFile q = w.readFile q := by
  unfold cpuDie.applyUncore
  by_cases hsup : env.featureList.isFeatureIdSupported env.UncoreFeature = true
  · rw [write_intel_eq _ env cgoAmd64 c.id d.id w hsup hv]
    rcases writeIntel_cases (d.getEffectiveUncore env s c) env c.id d.id w with
      ⟨_, h⟩ | ⟨_, h⟩ | ⟨_, h⟩
    · simp only [World.readFile, h, lookupFile_cons, if_neg (Ne.symm hq1),
        if_neg (Ne.symm hq2)]
    · rw [h]
    · simp only [World.readFile, h, lookupFile_cons, if_neg (Ne.symm hq1)]
  · simp only [Bool.not_eq_true] at hsup
    rw [write_unsupported_eq _ env cgoAmd64 c.id d.id w hsup]

/-- A die's `applyUncore` that returns nil, the feature being supported, leaves the die's
two files holding its effective uncore. -/
theorem die_apply_ok (env : Env) (cgoAmd64 : Bool) (s : cpuTopology) (c : cpuPackage)
    (d : cpuDie) (w : World) (hv : env.vendorID = .vendorIDIntel)
    (hsup : env.featureList.isFeatureIdSupported env.UncoreFeature = true)
    (hok : (d.applyUncore env cgoAmd64 s c w).2 = none) :
    dieFilesHold env s c d w (d.applyUncore env cgoAmd64 s c w).1 := by
  unfold cpuDie.applyUncore at hok ⊢
  rw [write_intel_eq _ env cgoAmd64 c.id d.id w hsup hv] at hok ⊢
  have hne : uncoreFilePath env c.id d.id intelUncoreMinFreqFile ≠
      uncoreFilePath env c.id d.id intelUncoreMaxFreqFile := by
    intro h
    have := (uncoreFilePath_inj env _ _ _ _ _ _ (Or.inr rfl) (Or.inl rfl) h).2.2
    exact absurd this (by decide)
  rcases writeIntel_cases (d.getEffectiveUncore env s c) env c.id d.id w with
    ⟨_, h⟩ | ⟨h1, _⟩ | ⟨h1, _⟩
  · refine ⟨?_, ?_, ?_⟩
    · simp only [World.readFile, h, lookupFile_cons, if_neg hne, if_true]
    · simp only [World.readFile, h, lookupFile_cons, if_true]
    · exact ⟨_, by rw [h], by simp, by simp⟩
  · exact absurd hok h1
  · exact absurd hok h1

/-- The trace of writes only grows along a die's `applyUncore`. -/
theorem die_apply_writes_grow (env : Env) (cgoAmd64 : Bool) (s : cpuTopology) (c : cpuPackage)
    (d : cpuDie) (w : World) (hv : env.vendorID = .vendorIDIntel) :
    ∃ new, (d.applyUncore env cgoAmd64 s c w).1.writes = w.writes ++ new := by
  obtain ⟨new, h, _⟩ := write_intel_writes (d.getEffectiveUncore env s c) env cgoAmd64
    c.id d.id w hv
  exact ⟨new, h⟩

/-- A walk leaves the content of a file that none of its children changes. -/
theorem rangeApply_readFile_frame {α : Type} (apply : α → World → World × Option GoError)
    (q : String) (xs : List α)
    (h : ∀ x ∈ xs, ∀ w, (apply x w).1.readFile q = w.readFile q) (w : World) :
    (rangeApply apply xs w).1.readFile q = w.readFile q := by
  induction xs generalizing w with
  | nil => simp [rangeApply]
  | cons x rest ih =>
    have hf := h x (by simp) w
    rcases hx : apply x w with ⟨w1, _ | e⟩
    · rw [rangeApply_cons_none apply x rest w w1 hx, ih (fun y hy => h y (by simp [hy])) w1]
      rw [hx] at hf
      exact hf
    · rw [rangeApply_cons_some apply x rest w w1 e hx]
      rw [hx] at hf
      exact hf

theorem dieFilesHold_of_later (env : Env) (s : cpuTopology) (c : cpuPackage) (d : cpuDie)
    (w w1 w2 : World) (n1 : List (String × String)) (h1 : w1.writes = w.writes ++ n1)
    (h : dieFilesHold env s c d w1 w2) : dieFilesHold env s c d w w2 := by
  obtain ⟨hmax, hmin, new, hnew, m1, m2⟩ := h
  refine ⟨hmax, hmin, n1 ++ new, ?_, ?_, ?_⟩
  · rw [hnew, h1, List.append_assoc]
  · exact List.mem_append.mpr (Or.inr m1)
  · exact List.mem_append.mpr (Or.inr m2)

theorem dieFilesHold_of_earlier (env : Env) (s : cpuTopology) (c : cpuPackage) (d : cpuDie)
    (w w1 w2 : World) (n2 : List (String × String)) (h2 : w2.writes = w1.writes ++ n2)
    (hmax : w2.readFile (uncoreFilePath env c.id d.id intelUncoreMaxFreqFile) =
      w1.readFile (uncoreFilePath env c.id d.id intelUncoreMaxFreqFile))
    (hmin : w2.readFile (uncoreFilePath env c.id d.id intelUncoreMinFreqFile) =
      w1.readFile (uncoreFilePath env c.id d.id intelUncoreMinFreqFile))
    (h : dieFilesHold env s c d w w1) : dieFilesHold env s c d w w2 := by
  obtain ⟨h1, h3, new, hnew, m1, m2⟩ := h
  refine ⟨hmax.trans h1, hmin.trans h3, new ++ n2, ?_, ?_, ?_⟩
  · rw [h2, hnew, List.append_assoc]
  · exact List.mem_append.mpr (Or.inl m1)
  · exact List.mem_append.mpr (Or.inl m2)

/-- The files of a die are not those of a die with another id, or of another package. -/
theorem uncoreFilePath_ne (env : Env) (p d p2 d2 : Nat) (f f2 : String)
    (hf : f = intelUncoreMaxFreqFile ∨ f = intelUncoreMinFreqFile)
    (hf2 : f2 = intelUncoreMaxFreqFile ∨ f2 = intelUncoreMinFreqFile)
    (hne : p ≠ p2 ∨ d ≠ d2) : uncoreFilePath env p d f ≠ uncoreFilePath env p2 d2 f2 := by
  intro h
  obtain ⟨h1, h2, _⟩ := uncoreFilePath_inj env p d p2 d2 f f2 hf hf2 h
  rcases hne with hne | hne
  · exact hne h1
  · exact hne h2

/-- The walk over the dies of a package, when it returns nil. -/
theorem dies_walk_files (env : Env) (cgoAmd64 : Bool) (s : cpuTopology) (c : cpuPackage)
    (hv : env.vendorID = .vendorIDIntel)
    (hsup : env.featureList.isFeatureIdSupported env.UncoreFeature = true)
    (ds : List cpuDie) (hnd : (ds.map (fun d => d.id)).Nodup) (w : World)
    (hok : (rangeApply (fun (die : cpuDie) => die.applyUncore env cgoAmd64 s c) ds w).2 = none) :
    ∀ d ∈ ds, dieFilesHold env s c d w
      (rangeApply (fun (die : cpuDie) => die.applyUncore env cgoAmd64 s c) ds w).1 := by
  induction ds generalizing w with
  | nil => simp
  | cons x rest ih =>
    rcases hx : x.applyUncore env cgoAmd64 s c w with ⟨w1, _ | e⟩
    swap
    · rw [rangeApply_cons_some _ x rest w w1 e hx] at hok
      simp at hok
    rw [rangeApply_cons_none _ x rest w w1 hx] at hok ⊢
    have hnd2 : (rest.map (fun d => d.id)).Nodup := (List.nodup_cons.mp hnd).2
    have hxid : ∀ d2 ∈ rest, x.id ≠ d2.id := by
      intro d2 hd2 heq
      apply (List.nodup_cons.mp hnd).1
      exact List.mem_map.mpr ⟨d2, hd2, heq.symm⟩
    have hx1 : dieFilesHold env s c x w w1 := by
      have := die_apply_ok env cgoAmd64 s c x w hv hsup (by rw [hx])
      rw [hx] at this
      exact this
    obtain ⟨n1, hn1⟩ := die_apply_writes_grow env cgoAmd64 s c x w hv
    rw [hx] at hn1
    obtain ⟨n2, hn2, _⟩ := rangeApply_writes
      (fun (die : cpuDie) => die.applyUncore env cgoAmd64 s c) (fun _ => True) rest
      (fun d _ w0 => by
        obtain ⟨new, h⟩ := die_apply_writes_grow env cgoAmd64 s c d w0 hv
        exact ⟨new, h, fun _ _ => trivial⟩) w1
    intro d hd
    rcases List.mem_cons.mp hd with hd | hd
    · subst hd
      refine dieFilesHold_of_earlier env s c d w w1 _ n2 hn2 ?_ ?_ hx1
      · apply rangeApply_readFile_frame
        intro d2 hd2 w0
        exact die_apply_frame env cgoAmd64 s c d2 w0 hv _
          (uncoreFilePath_ne env _ _ _ _ _ _ (Or.inl rfl) (Or.inl rfl) (Or.inr (hxid d2 hd2)))
          (uncoreFilePath_ne env _ _ _ _ _ _ (Or.inl rfl) (Or.inr rfl) (Or.inr (hxid d2 hd2)))
      · apply rangeApply_readFile_frame
        intro d2 hd2 w0
        exact die_apply_frame env cgoAmd64 s c d2 w0 hv _
          (uncoreFilePath_ne env _ _ _ _ _ _ (Or.inr rfl) (Or.inl rfl) (Or.inr (hxid d2 hd2)))
          (uncoreFilePath_ne env _ _ _ _ _ _ (Or.inr rfl) (Or.inr rfl) (Or.inr (hxid d2 hd2)))
    · exact dieFilesHold_of_later env s c d w w1 _ n1 hn1 (ih hnd2 w1 hok d hd)

theorem package_apply_frame (env : Env) (cgoAmd64 : Bool) (s : cpuTopology) (c : cpuPackage)
    (w : World) (hv : env.vendorID = .vendorIDIntel) (q : String)
    (hq : ∀ d ∈ c.dies, q ≠ uncoreFilePath env c.id d.id intelUncoreMaxFreqFile ∧
      q ≠ uncoreFilePath env c.id d.id intelUncoreMinFreqFile) :
    (c.applyUncore env cgoAmd64 s w).1.readFile q = w.readFile q := by
  unfold cpuPackage.applyUncore
  apply rangeApply_readFile_frame
  intro d hd w0
  exact die_apply_frame env cgoAmd64 s c d w0 hv q (hq d hd).1 (hq d hd).2

theorem package_apply_writes_grow (env : Env) (cgoAmd64 : Bool) (s : cpuTopology)
    (c : cpuPackage) (w : World) (hv : env.vendorID = .vendorIDIntel) :
    ∃ new, (c.applyUncore env cgoAmd64 s w).1.writes = w.writes ++ new := by
  obtain ⟨new, h, _⟩ := rangeApply_writes
    (fun (die : cpuDie) => die.applyUncore env cgoAmd64 s c) (fun _ => True) c.dies
    (fun d _ w0 => by
      obtain ⟨new, h⟩ := die_apply_writes_grow env cgoAmd64 s c d w0 hv
      exact ⟨new, h, fun _ _ => trivial⟩) w
  exact ⟨new, h⟩

/-- The walk over the packages of a topology, when it returns nil. -/
theorem packages_walk_files (env : Env) (cgoAmd64 : Bool) (s : cpuTopology)
    (hv : env.vendorID = .vendorIDIntel)
    (hsup : env.featureList.isFeatureIdSupported env.UncoreFeature = true)
    (cs : List cpuPackage) (hnd : (cs.map (fun c => c.id)).Nodup)
    (hdn : ∀ c ∈ cs, (c.dies.map (fun d => d.id)).Nodup) (w : World)
    (hok : (rangeApply (fun (pkg : cpuPackage) => pkg.applyUncore env cgoAmd64 s) cs w).2
      = none) :
    ∀ c ∈ cs, ∀ d ∈ c.dies, dieFilesHold env s c d w
      (rangeApply (fun (pkg : cpuPackage) => pkg.applyUncore env cgoAmd64 s) cs w).1 := by
  induction cs generalizing w with
  | nil => simp
  | cons x rest ih =>
    rcases hx : x.applyUncore env cgoAmd64 s w with ⟨w1, _ | e⟩
    swap
    · rw [rangeApply_cons_some _ x rest w w1 e hx] at hok
      simp at hok
    rw [rangeApply_cons_none _ x rest w w1 hx] at hok ⊢
    have hnd2 : (rest.map (fun c => c.id)).Nodup := (List.nodup_cons.mp hnd).2
    have hxid : ∀ c2 ∈ rest, x.id ≠ c2.id := by
      intro c2 hc2 heq
      apply (List.nodup_cons.mp hnd).1
      exact List.mem_map.mpr ⟨c2, hc2, heq.symm⟩
    have hx1 : ∀ d ∈ x.dies, dieFilesHold env s x d w w1 := by
      have := dies_walk_files env cgoAmd64 s x hv hsup x.dies (hdn x (by simp)) w
        (by
          have h2 : (x.applyUncore env cgoAmd64 s w).2 = none := by rw [hx]
          exact h2)
      have h3 : (rangeApply (fun (die : cpuDie) => die.applyUncore env cgoAmd64 s x)
          x.dies w).1 = w1 := by
        have h4 : (x.applyUncore env cgoAmd64 s w).1 = w1 := by rw [hx]
        exact h4
      rw [h3] at this
      exact this
    obtain ⟨n1, hn1⟩ := package_apply_writes_grow env cgoAmd64 s x w hv
    rw [hx] at hn1
    obtain ⟨n2, hn2, _⟩ := rangeApply_writes
      (fun (pkg : cpuPackage) => pkg.applyUncore env cgoAmd64 s) (fun _ => True) rest
      (fun c2 _ w0 => by
        obtain ⟨new, h⟩ := package_apply_writes_grow env cgoAmd64 s c2 w0 hv
        exact ⟨new, h, fun _ _ => trivial⟩) w1
    intro c hc d hd
    rcases List.mem_cons.mp hc with hc | hc
    · subst hc
      refine dieFilesHold_of_earlier env s c d w w1 _ n2 hn2 ?_ ?_ (hx1 d hd)
      · apply rangeApply_readFile_frame
        intro c2 hc2 w0
        apply package_apply_frame env cgoAmd64 s c2 w0 hv
        intro d2 _
        exact ⟨uncoreFilePath_ne env _ _ _ _ _ _ (Or.inl rfl) (Or.inl rfl)
            (Or.inl (hxid c2 hc2)),
          uncoreFilePath_ne env _ _ _ _ _ _ (Or.inl rfl) (Or.inr rfl)
            (Or.inl (hxid c2 hc2))⟩
      · apply rangeApply_readFile_frame
        intro c2 hc2 w0
        apply package_apply_frame env cgoAmd64 s c2 w0 hv
        intro d2 _
        exact ⟨uncoreFilePath_ne env _ _ _ _ _ _ (Or.inr rfl) (Or.inl rfl)
            (Or.inl (hxid c2 hc2)),
          uncoreFilePath_ne env _ _ _ _ _ _ (Or.inr rfl) (Or.inr rfl)
            (Or.inl (hxid c2 hc2))⟩
    · exact dieFilesHold_of_later env s c d w w1 _ n1 hn1
        (ih hnd2 (fun c2 hc2 => hdn c2 (by simp [hc2])) w1 hok c hc d hd)

/-- C8: on an Intel host with the uncore feature supported, for every topology (package
ids distinct, die ids distinct within a package, the collections being maps keyed by id)
and every `Uncore` value `u`: if `topology.SetUncore(u)` returns nil then, for every die `d`
of every package `c`, the file `max_freq_khz` of the directory of `(c.id, d.id)` holds the
decimal text of the maximum of `d`'s effective uncore and `min_freq_khz` that of its
minimum, the effective uncore being taken in the updated tree; both were written during
the call, to the paths built from `(c.id, d.id)`; and a die with no override of its own
whose package has none holds the maximum and minimum of `u`. -/
theorem SetUncore_intel_files (env : Env) (cgoAmd64 : Bool) (s : cpuTopology)
    (uncore : Uncore) (w : World) (hv : env.vendorID = .vendorIDIntel)
    (hsup : env.featureList.isFeatureIdSupported env.UncoreFeature = true)
    (hkeys : s.keysDistinct)
    (hok : (s.SetUncore env cgoAmd64 uncore w).2.2 = none) :
    ∀ c ∈ s.packages, ∀ d ∈ c.dies,
      ((s.SetUncore env cgoAmd64 uncore w).2.1.readFile
          (uncoreFilePath env c.id d.id intelUncoreMaxFreqFile)
        = some (fmtUint
            (d.getEffectiveUncore env (s.SetUncore env cgoAmd64 uncore w).1 c).max) ∧
      (s.SetUncore env cgoAmd64 uncore w).2.1.readFile
          (uncoreFilePath env c.id d.id intelUncoreMinFreqFile)
        = some (fmtUint
            (d.getEffectiveUncore env (s.SetUncore env cgoAmd64 uncore w).1 c).min) ∧
      ∃ new, (s.SetUncore env cgoAmd64 uncore w).2.1.writes = w.writes ++ new ∧
        (uncoreFilePath env c.id d.id intelUncoreMaxFreqFile,
          fmtUint (d.getEffectiveUncore env (s.SetUncore env cgoAmd64 uncore w).1 c).max)
          ∈ new ∧
        (uncoreFilePath env c.id d.id intelUncoreMinFreqFile,
          fmtUint (d.getEffectiveUncore env (s.SetUncore env cgoAmd64 uncore w).1 c).min)
          ∈ new) ∧
      (∀ u, uncore = some u → d.uncore = none → c.uncore = none →
        (s.SetUncore env cgoAmd64 uncore w).2.1.readFile
            (uncoreFilePath env c.id d.id intelUncoreMaxFreqFile) = some (fmtUint u.max) ∧
        (s.SetUncore env cgoAmd64 uncore w).2.1.readFile
            (uncoreFilePath env c.id d.id intelUncoreMinFreqFile) = some (fmtUint u.min)) := by
  intro c hc d hd
  have hwalk := packages_walk_files env cgoAmd64 { s with uncore := uncore } hv hsup
    s.packages hkeys.1 hkeys.2 w hok c hc d hd
  refine ⟨hwalk, ?_⟩
  intro u hu hdu hcu
  obtain ⟨h1, h2, _⟩ := hwalk
  have hE : d.getEffectiveUncore env { s with uncore := uncore } c = u := by
    simp [cpuDie.getEffectiveUncore, cpuPackage.getEffectiveUncore,
      cpuTopology.getEffectiveUncore, hdu, hcu, hu]
  rw [hE] at h1 h2
  exact ⟨h1, h2⟩

/-- The statement of C8 at the first scenario: after `SetUncore` of 1400000, 2200000 the
files of package 1, die 0 hold 2200000 and 1400000. -/
theorem SetUncore_intel_files_witness :
    testEnvIntel.vendorID = .vendorIDIntel ∧
    testEnvIntel.featureList.isFeatureIdSupported testEnvIntel.UncoreFeature = true ∧
    (testTopology.SetUncore testEnvIntel true (some ⟨1400000, 2200000⟩) testWorldWrite).2.2
      = none ∧
    (testTopology.SetUncore testEnvIntel true (some ⟨1400000, 2200000⟩)
        testWorldWrite).2.1.readFile
      (uncoreFilePath testEnvIntel 1 0 intelUncoreMaxFreqFile) = some (fmtUint 2200000) ∧
    (testTopology.SetUncore testEnvIntel true (some ⟨1400000, 2200000⟩)
        testWorldWrite).2.1.readFile
      (uncoreFilePath testEnvIntel 1 0 intelUncoreMinFreqFile) = some (fmtUint 1400000) :=
  ⟨rfl, by decide, by decide,
    ((SetUncore_intel_files testEnvIntel true testTopology (some ⟨1400000, 2200000⟩)
      testWorldWrite rfl (by decide)
      ⟨by decide, by
        intro c hc
        simp [testTopology] at hc
        rcases hc with rfl | rfl <;> simp⟩
      (by decide)
      ⟨1, none, [⟨0, none⟩]⟩ (by decide) ⟨0, none⟩ (by decide)).2
        ⟨1400000, 2200000⟩ rfl rfl rfl)⟩

/-! ## Error texts of `NewUncore` -/

/-- C11: with the uncore feature supported, a rejected `NewUncore` reports the first failing
check in the order min, max, order, the label being `uncore frequency (kHz)` on Intel and
`DF P-state` on AMD: `min` below the hardware minimum gives "requested min LABEL MIN is
lower than HWMIN allowed by the hardware"; otherwise `max` above the hardware maximum gives
"requested max LABEL MAX is higher than HWMAX allowed by the hardware", so that
`max = hw.max + 1` with `hw.min ≤ min` gives a text containing "higher than"; otherwise
`max` below `min` gives "requested max LABEL MAX cannot be lower than min LABEL MIN". Any
other vendor gives "unsupported vendor: VENDOR". The numbers are in decimal, as the two
texts of `TestNewUncore` on Intel show. -/
theorem NewUncore_error_texts (env : Env) (minFreq maxFreq : Nat)
    (hsup : env.featureList.isFeatureIdSupported env.UncoreFeature = true) :
    (∀ label : String,
      (env.vendorID = .vendorIDIntel ∧ label = "uncore frequency (kHz)") ∨
        (env.vendorID = .vendorIDAMD ∧ label = "DF P-state") →
      (minFreq < env.defaultUncore.min →
        NewUncore env minFreq maxFreq =
          (none, some ⟨"requested min " ++ label ++ " " ++ fmtUint minFreq ++
            " is lower than " ++ fmtUint env.defaultUncore.min ++
            " allowed by the hardware"⟩)) ∧
      (env.defaultUncore.min ≤ minFreq → maxFreq > env.defaultUncore.max →
        NewUncore env minFreq maxFreq =
          (none, some ⟨"requested max " ++ label ++ " " ++ fmtUint maxFreq ++
            " is higher than " ++ fmtUint env.defaultUncore.max ++
            " allowed by the hardware"⟩)) ∧
      (env.defaultUncore.min ≤ minFreq → maxFreq = env.defaultUncore.max + 1 →
        ∃ e, (NewUncore env minFreq maxFreq).2 = some e ∧
          List.IsInfix "higher than".data e.text.data) ∧
      (env.defaultUncore.min ≤ minFreq → maxFreq ≤ env.defaultUncore.max →
        maxFreq < minFreq →
        NewUncore env minFreq maxFreq =
          (none, some ⟨"requested max " ++ label ++ " " ++ fmtUint maxFreq ++
            " cannot be lower than min " ++ label ++ " " ++ fmtUint minFreq⟩))) ∧
    (∀ name : String, env.vendorID = .other name →
      NewUncore env minFreq maxFreq = (none, some ⟨"unsupported vendor: " ++ name⟩)) ∧
    (NewUncore testEnvIntel 1400000 9999999).2 = some ⟨"requested max uncore frequency " ++
      "(kHz) 9999999 is higher than 2400000 allowed by the hardware"⟩ ∧
    (NewUncore testEnvIntel 100 2200000).2 = some ⟨"requested min uncore frequency " ++
      "(kHz) 100 is lower than 1200000 allowed by the hardware"⟩ := by
  refine ⟨?_, ?_, by decide, by decide⟩
  · intro label hlabel
    have hmax : ∀ (hlo : env.defaultUncore.min ≤ minFreq)
        (hhi : maxFreq > env.defaultUncore.max),
        NewUncore env minFreq maxFreq =
          (none, some ⟨"requested max " ++ label ++ " " ++ fmtUint maxFreq ++
            " is higher than " ++ fmtUint env.defaultUncore.max ++
            " allowed by the hardware"⟩) := by
      intro hlo hhi
      rcases hlabel with ⟨hv, hl⟩ | ⟨hv, hl⟩ <;>
      · subst hl
        simp [NewUncore, hsup, hv, Nat.not_lt.mpr hlo, hhi]
    refine ⟨?_, hmax, ?_, ?_⟩
    · intro hlo
      rcases hlabel with ⟨hv, hl⟩ | ⟨hv, hl⟩ <;>
      · subst hl
        simp [NewUncore, hsup, hv, hlo]
    · intro hlo hmx
      refine ⟨_, by rw [hmax hlo (by omega)], ?_⟩
      refine ⟨("requested max " ++ label ++ " " ++ fmtUint maxFreq ++ " is ").data,
        (" " ++ fmtUint env.defaultUncore.max ++ " allowed by the hardware").data, ?_⟩
      have : (" is higher than " : String) = " is " ++ "higher than" ++ " " := by decide
      simp only [this, String.data_append, List.append_assoc]
    · intro hlo hhi hord
      rcases hlabel with ⟨hv, hl⟩ | ⟨hv, hl⟩ <;>
      · subst hl
        simp [NewUncore, hsup, hv, Nat.not_lt.mpr hlo, Nat.not_lt.mpr hhi, hord]
  · intro name hv
    simp [NewUncore, hsup, hv]

/-- The statement of C11 at the AMD requests of `TestNewUncore`: 1, 3 and 2, 1. -/
theorem NewUncore_error_texts_witness :
    testEnvAMD.featureList.isFeatureIdSupported testEnvAMD.UncoreFeature = true ∧
    NewUncore testEnvAMD 1 3 =
      (none, some ⟨"requested max " ++ "DF P-state" ++ " " ++ fmtUint 3 ++
        " is higher than " ++ fmtUint testEnvAMD.defaultUncore.max ++
        " allowed by the hardware"⟩) ∧
    NewUncore testEnvAMD 2 1 =
      (none, some ⟨"requested max " ++ "DF P-state" ++ " " ++ fmtUint 1 ++
        " cannot be lower than min " ++ "DF P-state" ++ " " ++ fmtUint 2⟩) :=
  ⟨by decide,
    ((NewUncore_error_texts testEnvAMD 1 3 (by decide)).1 "DF P-state"
      (Or.inr ⟨rfl, rfl⟩)).2.1 (by decide) (by decide),
    ((NewUncore_error_texts testEnvAMD 2 1 (by decide)).1 "DF P-state"
      (Or.inr ⟨rfl, rfl⟩)).2.2.2 (by decide) (by decide) (by decide)⟩

/-! ## Dispatch of `write` -/

/-- C16: for every `uncoreFreq`, package id and die id. When the uncore feature is not
supported, `write` returns nil and leaves the world as it is (no file write, no backend
call), whatever the vendor. When it is supported, `write` is the Intel writer on Intel, the
AMD writer of the build on AMD (the E-SMI one on linux, amd64, cgo; the stub elsewhere),
and on any other vendor it returns "unsupported vendor: VENDOR" and leaves the world as it
is. -/
theorem write_dispatch (env : Env) (cgoAmd64 : Bool) (u : uncoreFreq) (pkgId dieId : Nat)
    (w : World) :
    (env.featureList.isFeatureIdSupported env.UncoreFeature = false →
      u.write env cgoAmd64 pkgId dieId w = (w, none)) ∧
    (env.featureList.isFeatureIdSupported env.UncoreFeature = true →
      (env.vendorID = .vendorIDIntel →
        u.write env cgoAmd64 pkgId dieId w = u.writeIntel env pkgId dieId w) ∧
      (env.vendorID = .vendorIDAMD →
        u.write env true pkgId dieId w = u.writeAMD pkgId w ∧
        u.write env false pkgId dieId w = u.writeAMDStub pkgId w) ∧
      (∀ name : String, env.vendorID = .other name →
        u.write env cgoAmd64 pkgId dieId w =
          (w, some ⟨"unsupported vendor: " ++ name⟩))) := by
  refine ⟨?_, ?_⟩
  · intro hns
    simp [uncoreFreq.write, hns]
  · intro hsup
    refine ⟨?_, ?_, ?_⟩
    · intro hv
      simp [uncoreFreq.write, hsup, hv]
    · intro hv
      simp [uncoreFreq.write, hsup, hv]
    · intro name hv
      simp [uncoreFreq.write, hsup, hv]

/-! ## Ordering and range of the stored values -/

/-- What a successful `NewUncore` has checked and what it returns. -/
theorem NewUncore_ok_cases (env : Env) (a b : Nat) (u : uncoreFreq)
    (hok : NewUncore env a b = (some u, none)) :
    env.defaultUncore.min ≤ a ∧ a ≤ b ∧ b ≤ env.defaultUncore.max ∧
    ((env.vendorID = .vendorIDIntel ∧
        u = { min := normalizeUncoreFreq a, max := normalizeUncoreFreq b }) ∨
      (env.vendorID = .vendorIDAMD ∧ u = { min := a, max := b })) := by
  have hok2 : (NewUncore env a b).2 = none := by rw [hok]
  have hsup := NewUncore_supported_of_ok env a b hok2
  by_cases h1 : a < env.defaultUncore.min
  · cases hv : env.vendorID <;> simp [NewUncore, hsup, hv, h1] at hok
  by_cases h2 : b > env.defaultUncore.max
  · cases hv : env.vendorID <;> simp [NewUncore, hsup, hv, h1, h2] at hok
  by_cases h3 : b < a
  · cases hv : env.vendorID <;> simp [NewUncore, hsup, hv, h1, h2, h3] at hok
  refine ⟨by omega, by omega, by omega, ?_⟩
  cases hv : env.vendorID with
  | other name => simp [NewUncore, hsup, hv] at hok
  | vendorIDIntel =>
    simp [NewUncore, hsup, hv, h1, h2, h3] at hok
    exact Or.inl ⟨rfl, hok.symm⟩
  | vendorIDAMD =>
    simp [NewUncore, hsup, hv, h1, h2, h3] at hok
    exact Or.inr ⟨rfl, hok.symm⟩

/-- The fixture of `Test_initUncore` gives the hardware range 100 to 999. -/
theorem initIntelUncore_fixture :
    (initIntelUncore testEnv testWorldInit).1.defaultUncore = { min := 100, max := 999 } ∧
    (initIntelUncore testEnv testWorldInit).1.vendorID = .vendorIDIntel ∧
    (initIntelUncore testEnv testWorldInit).2 = none := by
  decide

/-- C18, as stated, fails on Intel: with the hardware range 100 to 999 that
`initIntelUncore` reads from the fixture of `Test_initUncore`, `NewUncore(150, 900)` succeeds
and stores the minimum 0, which is below the hardware minimum 100. -/
theorem NewUncore_stored_min_counterexample :
    NewUncore (initIntelUncore testEnv testWorldInit).1 150 900 =
      (some { min := 0, max := 0 }, none) ∧
    ¬ ((initIntelUncore testEnv testWorldInit).1.defaultUncore.min ≤
      (uncoreFreq.mk 0 0).min) := by
  decide

/-- C18, amended: for every hardware default, on Intel and on AMD, and every `min` and
`max` that `NewUncore` accepts, the stored maximum is at most the hardware maximum; the
stored minimum is at least the hardware minimum on AMD, and on Intel whenever the hardware
minimum is a multiple of 100000. -/
theorem NewUncore_stored_in_range (env : Env) (minFreq maxFreq : Nat) (u : uncoreFreq)
    (hmin : minFreq < uintSize) (hmax : maxFreq < uintSize)
    (hok : NewUncore env minFreq maxFreq = (some u, none)) :
    u.max ≤ env.defaultUncore.max ∧
    (env.vendorID = .vendorIDAMD → env.defaultUncore.min ≤ u.min) ∧
    (env.vendorID = .vendorIDIntel → env.defaultUncore.min % 100000 = 0 →
      env.defaultUncore.min ≤ u.min) := by
  have e1 := normalizeUncoreFreq_eq minFreq hmin
  have e2 := normalizeUncoreFreq_eq maxFreq hmax
  obtain ⟨h1, h2, h3, ⟨hv, hu⟩ | ⟨hv, hu⟩⟩ :=
    NewUncore_ok_cases env minFreq maxFreq u hok
  · subst hu
    refine ⟨?_, ?_, ?_⟩
    · simp only
      omega
    · intro h
      rw [hv] at h
      simp at h
    · intro _ hmod
      simp only
      omega
  · subst hu
    refine ⟨?_, ?_, ?_⟩
    · simp only
      omega
    · intro _
      simp only
      omega
    · intro h
      rw [hv] at h
      simp at h

/-- The amended statement of C18 at the accepted request of `TestNewUncore`. -/
theorem NewUncore_stored_in_range_witness :
    (1400000 < uintSize ∧ 2200000 < uintSize ∧
      NewUncore testEnvIntel 1400000 2200000 = (some ⟨1400000, 2200000⟩, none)) ∧
    (uncoreFreq.mk 1400000 2200000).max ≤ testEnvIntel.defaultUncore.max ∧
    (testEnvIntel.vendorID = .vendorIDIntel → testEnvIntel.defaultUncore.min % 100000 = 0 →
      testEnvIntel.defaultUncore.min ≤ (uncoreFreq.mk 1400000 2200000).min) :=
  ⟨⟨by decide, by decide, by decide⟩,
    (NewUncore_stored_in_range testEnvIntel 1400000 2200000 ⟨1400000, 2200000⟩
      (by decide) (by decide) (by decide)).1,
    (NewUncore_stored_in_range testEnvIntel 1400000 2200000 ⟨1400000, 2200000⟩
      (by decide) (by decide) (by decide)).2.2⟩

/-- C19: `normalizeUncoreFreq` is monotone on `uint` values, and therefore every `uncoreFreq`
that a successful `NewUncore` returns, on Intel as on AMD, has its stored minimum at most
its stored maximum. -/
theorem normalizeUncoreFreq_monotone_stored_ordered (a b : Nat) (hb : b < uintSize) :
    (a ≤ b → normalizeUncoreFreq a ≤ normalizeUncoreFreq b) ∧
    (∀ (env : Env) (u : uncoreFreq), NewUncore env a b = (some u, none) → u.min ≤ u.max) := by
  have mono : a ≤ b → normalizeUncoreFreq a ≤ normalizeUncoreFreq b := by
    intro hab
    rw [normalizeUncoreFreq_eq a (by omega), normalizeUncoreFreq_eq b hb]
    omega
  refine ⟨mono, ?_⟩
  intro env u hok
  obtain ⟨_, h2, _, ⟨_, hu⟩ | ⟨_, hu⟩⟩ := NewUncore_ok_cases env a b u hok
  · subst hu
    exact mono h2
  · subst hu
    exact h2

/-- The statement of C19 at 1511111 and 2200000. -/
theorem normalizeUncoreFreq_monotone_stored_ordered_witness :
    2200000 < uintSize ∧
    (1511111 ≤ 2200000 → normalizeUncoreFreq 1511111 ≤ normalizeUncoreFreq 2200000) :=
  ⟨by decide, (normalizeUncoreFreq_monotone_stored_ordered 1511111 2200000 (by decide)).1⟩

/-! ## The Intel writer on a missing and on an existing die directory -/

theorem pathJoin_two (b sub : String) (hs : sub ≠ "") :
    pathJoin [b, sub] = (if b = "" then "" else b ++ "/") ++ sub := by
  have h1 : pathJoin [sub] = sub := by simp [pathJoin, hs]
  rw [pathJoin, h1]
  by_cases hb : b = ""
  · simp [hb]
  · simp only [hb, hs, if_false]

/-- The path of a file of a die directory is the path of the directory, a slash, and the
file name. -/
theorem uncoreFilePath_eq_dir (env : Env) (pkgId dieId : Nat) (f : String) (hf : f ≠ "") :
    uncoreFilePath env pkgId dieId f =
      pathJoin [env.basePath, intelUncorePath pkgId dieId] ++ "/" ++ f := by
  unfold uncoreFilePath
  rw [pathJoin_three _ _ _ (intelUncorePath_ne_empty pkgId dieId) hf,
    pathJoin_two _ _ (intelUncorePath_ne_empty pkgId dieId)]
  simp only [String.append_assoc]

theorem dropWhile_append_all {α : Type} (p : α → Bool) (xs ys : List α)
    (h : ∀ x ∈ xs, p x = true) : (xs ++ ys).dropWhile p = ys.dropWhile p := by
  induction xs with
  | nil => rfl
  | cons x xs ih =>
    have hx := h x (by simp)
    simp only [List.cons_append, List.dropWhile_cons, hx, if_true]
    exact ih (fun y hy => h y (by simp [hy]))

/-- The directory part of `dir/file` is `dir` when the file name has no slash. -/
theorem dirOf_append (dir f : String) (hf : ∀ c ∈ f.data, c ≠ '/') :
    dirOf (dir ++ "/" ++ f) = dir := by
  apply String.ext
  have hdata : (dir ++ "/" ++ f).data = dir.data ++ '/' :: f.data := by
    simp [String.data_append]
  simp only [dirOf, hdata, List.reverse_append, List.reverse_cons, List.append_assoc]
  rw [dropWhile_append_all]
  · simp
  · intro c hc
    have := hf c (List.mem_reverse.mp hc)
    simp [this]

theorem decimalAux_ne_nil (fuel n : Nat) : decimalAux (fuel + 1) n ≠ [] := by
  unfold decimalAux
  split_ifs <;> simp

theorem trimRight_digits (cs : List Char) (h : ∀ c ∈ cs, isDigit c = true) :
    trimRight cs = cs := by
  unfold trimRight
  cases hr : cs.reverse with
  | nil =>
    have : cs = [] := by simpa using hr
    simp [this]
  | cons c t =>
    have hc : isDigit c = true := h c (by
      have : c ∈ cs.reverse := by rw [hr]; simp
      exact List.mem_reverse.mp this)
    have hws : (decide (c = ' ') || decide (c = '\n') || decide (c = '\t') ||
        decide (c = '\r')) = false := by
      by_contra hne
      simp only [Bool.not_eq_false, Bool.or_eq_true, decide_eq_true_eq] at hne
      rcases hne with ((h1 | h1) | h1) | h1 <;>
      · subst h1
        exact absurd hc (by decide)
    simp only [List.dropWhile_cons, hws]
    rw [← hr]
    simp

/-- Reading back, as an unsigned integer, a file that holds the decimal text of `n`. -/
theorem readUintFromFile_fmtUint (w : World) (p : String) (n : Nat) (hn : n < uintSize)
    (h : w.readFile p = some (fmtUint n)) : readUintFromFile w p = (n, none) := by
  unfold readUintFromFile
  rw [h]
  have hd : ∀ c ∈ (fmtUint n).data, isDigit c = true := decimalAux_digits (n + 1) n
  have ht : trimRight (fmtUint n).data = (fmtUint n).data := trimRight_digits _ hd
  have hne : (fmtUint n).data ≠ [] := decimalAux_ne_nil n n
  have hv := fmtUint_value n
  simp only [ht, hv]
  rw [if_pos]
  refine ⟨hne, ?_, hn⟩
  simpa [List.all_eq_true] using hd

theorem dirOf_uncoreFilePath (env : Env) (pkgId dieId : Nat) (f : String)
    (hf : f = intelUncoreMaxFreqFile ∨ f = intelUncoreMinFreqFile) :
    dirOf (uncoreFilePath env pkgId dieId f) =
      pathJoin [env.basePath, intelUncorePath pkgId dieId] := by
  have hne : f ≠ "" := by
    rcases hf with hf | hf <;> subst hf <;> decide
  have hsl : ∀ c ∈ f.data, c ≠ '/' := by
    rcases hf with hf | hf <;> subst hf <;> decide
  rw [uncoreFilePath_eq_dir env pkgId dieId f hne]
  exact dirOf_append _ f hsl

/-- C17: on an Intel host with the uncore feature supported, for every `uncoreFreq` and
every `(pkg, die)`. When the directory of the die does not exist under the base path,
`write` returns the error of opening `max_freq_khz`, "open PATH: no such file or directory",
and leaves the world as it is: the write of `max_freq_khz` is attempted first and, as it
fails, `min_freq_khz` is not written. When the directory exists (the two files not being
directories themselves), `write` returns nil, it has written `max_freq_khz` and then
`min_freq_khz`, and reading the two files back yields `u.min` and `u.max`. -/
theorem write_intel_missing_or_present (env : Env) (cgoAmd64 : Bool) (u : uncoreFreq)
    (pkgId dieId : Nat) (w : World) (hv : env.vendorID = .vendorIDIntel)
    (hsup : env.featureList.isFeatureIdSupported env.UncoreFeature = true) :
    (pathJoin [env.basePath, intelUncorePath pkgId dieId] ∉ w.dirs →
      u.write env cgoAmd64 pkgId dieId w =
        (w, some ⟨"open " ++ uncoreFilePath env pkgId dieId intelUncoreMaxFreqFile ++
          ": no such file or directory"⟩) ∧
      List.IsInfix "no such file or directory".data
        ("open " ++ uncoreFilePath env pkgId dieId intelUncoreMaxFreqFile ++
          ": no such file or directory").data) ∧
    (pathJoin [env.basePath, intelUncorePath pkgId dieId] ∈ w.dirs →
      uncoreFilePath env pkgId dieId intelUncoreMaxFreqFile ∉ w.dirs →
      uncoreFilePath env pkgId dieId intelUncoreMinFreqFile ∉ w.dirs →
      u.min < uintSize → u.max < uintSize →
      (u.write env cgoAmd64 pkgId dieId w).2 = none ∧
      (u.write env cgoAmd64 pkgId dieId w).1.writes = w.writes ++
        [(uncoreFilePath env pkgId dieId intelUncoreMaxFreqFile, fmtUint u.max),
         (uncoreFilePath env pkgId dieId intelUncoreMinFreqFile, fmtUint u.min)] ∧
      readUncoreProperty env (u.write env cgoAmd64 pkgId dieId w).1 pkgId dieId
        intelUncoreMinFreqFile = (u.min, none) ∧
      readUncoreProperty env (u.write env cgoAmd64 pkgId dieId w).1 pkgId dieId
        intelUncoreMaxFreqFile = (u.max, none)) := by
  have hdmax := dirOf_uncoreFilePath env pkgId dieId intelUncoreMaxFreqFile (Or.inl rfl)
  have hdmin := dirOf_uncoreFilePath env pkgId dieId intelUncoreMinFreqFile (Or.inr rfl)
  have hwrite : u.write env cgoAmd64 pkgId dieId w = u.writeIntel env pkgId dieId w :=
    write_intel_eq u env cgoAmd64 pkgId dieId w hsup hv
  have hunf : u.writeIntel env pkgId dieId w =
      match w.WriteFile (uncoreFilePath env pkgId dieId intelUncoreMaxFreqFile)
          (fmtUint u.max) with
      | (w1, some err) => (w1, some err)
      | (w1, none) =>
        match w1.WriteFile (uncoreFilePath env pkgId dieId intelUncoreMinFreqFile)
            (fmtUint u.min) with
        | (w2, some err) => (w2, some err)
        | (w2, none) => (w2, none) := rfl
  refine ⟨?_, ?_⟩
  · intro hdir
    refine ⟨?_, ?_⟩
    · rw [hwrite, hunf]
      simp [World.WriteFile, hdmax, hdir]
    · refine ⟨("open " ++ uncoreFilePath env pkgId dieId intelUncoreMaxFreqFile ++ ": ").data,
        [], ?_⟩
      have : (": no such file or directory" : String) = ": " ++ "no such file or directory" := by
        decide
      simp only [this, String.data_append, List.append_assoc, List.append_nil]
  · intro hdir hmaxnd hminnd hmin hmax
    have hne : uncoreFilePath env pkgId dieId intelUncoreMinFreqFile ≠
        uncoreFilePath env pkgId dieId intelUncoreMaxFreqFile := by
      intro h
      have := (uncoreFilePath_inj env _ _ _ _ _ _ (Or.inr rfl) (Or.inl rfl) h).2.2
      exact absurd this (by decide)
    have hres : u.writeIntel env pkgId dieId w =
        ({ w with
          files := (uncoreFilePath env pkgId dieId intelUncoreMinFreqFile, fmtUint u.min) ::
            (uncoreFilePath env pkgId dieId intelUncoreMaxFreqFile, fmtUint u.max) :: w.files,
          writes := w.writes ++
            [(uncoreFilePath env pkgId dieId intelUncoreMaxFreqFile, fmtUint u.max),
             (uncoreFilePath env pkgId dieId intelUncoreMinFreqFile, fmtUint u.min)] },
         none) := by
      rw [hunf]
      simp [World.WriteFile, hdmax, hdmin, hdir, hmaxnd, hminnd]
    rw [hwrite, hres]
    refine ⟨rfl, rfl, ?_, ?_⟩
    · apply readUintFromFile_fmtUint _ _ _ hmin
      show lookupFile _ (uncoreFilePath env pkgId dieId intelUncoreMinFreqFile) = _
      simp only [lookupFile_cons, if_true]
    · apply readUintFromFile_fmtUint _ _ _ hmax
      show lookupFile _ (uncoreFilePath env pkgId dieId intelUncoreMaxFreqFile) = _
      simp only [lookupFile_cons, if_neg hne, if_true]

/-- The statement of C17 at the two calls of `TestUncoreFreq_write`: `write(2, 3)` without a
directory and `write(1, 0)` with one. -/
theorem write_intel_missing_or_present_witness :
    (testEnvIntel.vendorID = .vendorIDIntel ∧
      testEnvIntel.featureList.isFeatureIdSupported testEnvIntel.UncoreFeature = true) ∧
    (uncoreFreq.mk 1 9323).write testEnvIntel true 2 3 testWorldWrite =
      (testWorldWrite, some ⟨"open " ++
        uncoreFilePath testEnvIntel 2 3 intelUncoreMaxFreqFile ++
          ": no such file or directory"⟩) ∧
    readUncoreProperty testEnvIntel
      ((uncoreFreq.mk 1 9323).write testEnvIntel true 1 0 testWorldWrite).1 1 0
        intelUncoreMinFreqFile = (1, none) ∧
    readUncoreProperty testEnvIntel
      ((uncoreFreq.mk 1 9323).write testEnvIntel true 1 0 testWorldWrite).1 1 0
        intelUncoreMaxFreqFile = (9323, none) :=
  ⟨⟨rfl, by decide⟩,
    ((write_intel_missing_or_present testEnvIntel true ⟨1, 9323⟩ 2 3 testWorldWrite rfl
      (by decide)).1 (by decide)).1,
    ((write_intel_missing_or_present testEnvIntel true ⟨1, 9323⟩ 1 0 testWorldWrite rfl
      (by decide)).2 (by decide) (by decide) (by decide) (by decide) (by decide)).2.2.1,
    ((write_intel_missing_or_present testEnvIntel true ⟨1, 9323⟩ 1 0 testWorldWrite rfl
      (by decide)).2 (by decide) (by decide) (by decide) (by decide) (by decide)).2.2.2⟩

/-! ## Kernel module detection and `initUncore` -/

/-- The model of `strings.Contains` decides whether `substr` occurs in `s`. -/
theorem stringsContains_iff (s substr : List Char) :
    stringsContains s substr = true ↔ List.IsInfix substr s := by
  induction s with
  | nil => simp [stringsContains, List.infix_nil]
  | cons c rest ih =>
    simp only [stringsContains, Bool.or_eq_true, List.infix_cons_iff, ih,
      List.isPrefixOf_iff_prefix]

theorem checkKernelModuleLoaded_iff (env : Env) (w : World) (m : String) :
    checkKernelModuleLoaded env w m = true ↔
      ∃ content, w.readFile env.kernelModulesFilePath = some content ∧
        ∃ line ∈ scanLines content, List.IsInfix m.data line.data := by
  unfold checkKernelModuleLoaded
  cases h : w.readFile env.kernelModulesFilePath with
  | none => simp
  | some content => simp [List.any_eq_true, stringsContains_iff]

theorem prefix_of_append_sep (m xs ys : List Char) (c : Char) (hc : c ∉ m)
    (h : List.IsPrefix m (xs ++ c :: ys)) : List.IsPrefix m xs := by
  induction xs generalizing m with
  | nil =>
    cases m with
    | nil => exact List.prefix_refl []
    | cons x m2 =>
      simp only [List.nil_append, List.cons_prefix_cons] at h
      exact absurd (by simp [h.1]) hc
  | cons a xs2 ih =>
    cases m with
    | nil => exact List.nil_prefix
    | cons x m2 =>
      simp only [List.cons_append, List.cons_prefix_cons] at h ⊢
      exact ⟨h.1, ih m2 (fun hm => hc (by simp [hm])) h.2⟩

/-- A text without the separator `c` occurs in `xs ++ c :: ys` exactly when it occurs in
`xs` or in `ys`. -/
theorem infix_append_sep_iff (m xs ys : List Char) (c : Char) (hc : c ∉ m) :
    List.IsInfix m (xs ++ c :: ys) ↔ List.IsInfix m xs ∨ List.IsInfix m ys := by
  constructor
  · intro h
    induction xs with
    | nil =>
      rcases List.infix_cons_iff.mp h with hp | hi
      · left
        exact (prefix_of_append_sep m [] ys c hc hp).isInfix
      · exact Or.inr hi
    | cons x xs2 ih =>
      rcases List.infix_cons_iff.mp h with hp | hi
      · left
        exact (prefix_of_append_sep m (x :: xs2) ys c hc hp).isInfix
      · rcases ih hi with h1 | h2
        · exact Or.inl (List.infix_cons_iff.mpr (Or.inr h1))
        · exact Or.inr h2
  · rintro (⟨s, t, hst⟩ | ⟨s, t, hst⟩)
    · exact ⟨s, t ++ c :: ys, by rw [← hst]; simp⟩
    · exact ⟨xs ++ c :: s, t, by rw [← hst]; simp⟩

theorem infix_dropCR_iff (m line : List Char) (hr : '\r' ∉ m) :
    List.IsInfix m (dropCR line) ↔ List.IsInfix m line := by
  unfold dropCR
  split_ifs with h
  · have hl : line.dropLast ++ ['\r'] = line := List.dropLast_append_getLast? _ (by simp [h])
    conv_rhs => rw [← hl]
    rw [infix_append_sep_iff m line.dropLast [] '\r' hr]
    constructor
    · exact Or.inl
    · rintro (h1 | h2)
      · exact h1
      · have : m = [] := List.infix_nil.mp h2
        subst this
        exact List.nil_infix
  · rfl

/-- A text with no line break in it occurs in some line exactly when it occurs in the
content read so far and to come. -/
theorem scanLinesAux_infix_iff (m : List Char) (hn : '\n' ∉ m) (hr : '\r' ∉ m) (hne : m ≠ [])
    (rest cur : List Char) :
    (∃ line ∈ scanLinesAux rest cur, List.IsInfix m line) ↔
      List.IsInfix m (cur.reverse ++ rest) := by
  induction rest generalizing cur with
  | nil =>
    unfold scanLinesAux
    split_ifs with hc
    · subst hc
      simp [List.infix_nil, hne]
    · simp [infix_dropCR_iff m _ hr]
  | cons c rest ih =>
    unfold scanLinesAux
    split_ifs with hc
    · subst hc
      simp only [List.mem_cons, exists_eq_or_imp, infix_dropCR_iff m _ hr]
      rw [ih [], infix_append_sep_iff m cur.reverse rest '\n' hn]
      simp
    · rw [ih (c :: cur)]
      simp

theorem scanLines_infix_iff (m content : String) (hn : '\n' ∉ m.data) (hr : '\r' ∉ m.data)
    (hne : m ≠ "") :
    (∃ line ∈ scanLines content, List.IsInfix m.data line.data) ↔
      List.IsInfix m.data content.data := by
  have hne2 : m.data ≠ [] := fun h => hne (String.ext h)
  have := scanLinesAux_infix_iff m.data hn hr hne2 content.data []
  simp only [List.reverse_nil, List.nil_append] at this
  rw [← this]
  simp [scanLines]

/-- C15: on an Intel host, when the modules file cannot be opened or none of its lines
contains `intel_uncore_frequency`, `initUncore` returns the feature status of name
`Uncore frequency`, driver `N/A` and error "uncore feature error: kernel module
intel_uncore_frequency not loaded", a text that contains "not loaded", and changes neither
`defaultUncore` nor anything else. For every `m`, `checkKernelModuleLoaded(m)` is true
exactly when the modules file can be read and one of its lines contains `m`; for a
non-empty `m` without line break characters that is exactly when the content of the file
contains `m`. The lines are those of `bufio.ScanLines`. -/
theorem initUncore_module_not_loaded (env : Env) (cgoAmd64 : Bool) (w : World)
    (hv : env.vendorID = .vendorIDIntel)
    (hmod : w.readFile env.kernelModulesFilePath = none ∨
      ∃ content, w.readFile env.kernelModulesFilePath = some content ∧
        ∀ line ∈ scanLines content, ¬ List.IsInfix "intel_uncore_frequency".data line.data) :
    initUncore env cgoAmd64 w =
      ({ name := "Uncore frequency", driver := "N/A",
         err := some ⟨"uncore feature error: kernel module intel_uncore_frequency " ++
           "not loaded"⟩ }, env, w) ∧
    List.IsInfix "not loaded".data
      ("uncore feature error: kernel module intel_uncore_frequency " ++ "not loaded").data ∧
    (initUncore env cgoAmd64 w).2.1.defaultUncore = env.defaultUncore ∧
    (∀ m : String, checkKernelModuleLoaded env w m = true ↔
      ∃ content, w.readFile env.kernelModulesFilePath = some content ∧
        ∃ line ∈ scanLines content, List.IsInfix m.data line.data) ∧
    (∀ m : String, m ≠ "" → '\n' ∉ m.data → '\r' ∉ m.data →
      (checkKernelModuleLoaded env w m = true ↔
        ∃ content, w.readFile env.kernelModulesFilePath = some content ∧
          List.IsInfix m.data content.data)) := by
  have hnot : checkKernelModuleLoaded env w intelUncoreKmodName = false := by
    rw [← Bool.not_eq_true, checkKernelModuleLoaded_iff]
    rintro ⟨content, hc, line, hl, hin⟩
    rcases hmod with h | ⟨content2, hc2, hall⟩
    · rw [h] at hc
      simp at hc
    · rw [hc2] at hc
      simp only [Option.some.injEq] at hc
      subst hc
      exact hall line hl hin
  have hinit : initUncore env cgoAmd64 w =
      ({ name := "Uncore frequency", driver := "N/A",
         err := some ⟨"uncore feature error: kernel module intel_uncore_frequency " ++
           "not loaded"⟩ }, env, w) := by
    have h2 : initIntelUncore env w =
        (env, some ⟨"kernel module " ++ intelUncoreKmodName ++ " not loaded"⟩) := by
      simp [initIntelUncore, hnot]
    simp only [initUncore, hv, h2]
    have ht : "uncore feature error: " ++ ("kernel module " ++ intelUncoreKmodName ++
        " not loaded") = "uncore feature error: kernel module intel_uncore_frequency " ++
          "not loaded" := by decide
    simp only [ht]
  refine ⟨hinit, ?_, by rw [hinit], checkKernelModuleLoaded_iff env w, ?_⟩
  · exact ⟨"uncore feature error: kernel module intel_uncore_frequency ".data, [], by
      simp only [String.data_append, List.append_nil]⟩
  · intro m hne hn hr
    rw [checkKernelModuleLoaded_iff]
    constructor
    · rintro ⟨content, hc, hl⟩
      exact ⟨content, hc, (scanLines_infix_iff m content hn hr hne).mp hl⟩
    · rintro ⟨content, hc, hl⟩
      exact ⟨content, hc, (scanLines_infix_iff m content hn hr hne).mpr hl⟩

/-- The statement of C15 at the fixture of `Test_initUncore` whose modules file lists
`intel_cstates` but not the uncore module. -/
theorem initUncore_module_not_loaded_witness :
    testEnv.vendorID = .vendorIDIntel ∧
    testWorldNotLoaded.readFile testEnv.kernelModulesFilePath =
      some ("intel_cstates 14 0 - Live 0000ffffad212d\n" ++
        "rtscan 2342 0 -Live 0000ffff234ab4d") ∧
    initUncore testEnv true testWorldNotLoaded =
      ({ name := "Uncore frequency", driver := "N/A",
         err := some ⟨"uncore feature error: kernel module intel_uncore_frequency " ++
           "not loaded"⟩ }, testEnv, testWorldNotLoaded) :=
  ⟨rfl, by decide,
    (initUncore_module_not_loaded testEnv true testWorldNotLoaded rfl
      (Or.inr ⟨"intel_cstates 14 0 - Live 0000ffffad212d\n" ++
          "rtscan 2342 0 -Live 0000ffff234ab4d", by decide, by
        intro line hl
        rw [← stringsContains_iff]
        revert line
        decide⟩)).1⟩

/-! ## The host: `initHost` and `AddExclusivePool` -/

theorem IndexOfName_not_found (pools : PoolList) (n : String)
    (h : ∀ p ∈ pools, p.name ≠ n) : PoolList.IndexOfName pools n = -1 := by
  induction pools with
  | nil => rfl
  | cons p rest ih =>
    have hp : p.name ≠ n := h p (by simp)
    have hr := ih (fun q hq => h q (by simp [hq]))
    simp [PoolList.IndexOfName, hp, hr]

/-- When a pool of the name exists, `IndexOfName` is the position of the first one. -/
theorem IndexOfName_found (pools : PoolList) (n : String)
    (h : ∃ p ∈ pools, p.name = n) :
    ∃ (i : Nat) (pool : Pool), PoolList.IndexOfName pools n = (i : Int) ∧
      pools[i]? = some pool ∧ pool.name = n ∧
      ∀ j q, j < i → pools[j]? = some q → q.name ≠ n := by
  induction pools with
  | nil => simp at h
  | cons p rest ih =>
    by_cases hp : p.name = n
    · refine ⟨0, p, by simp [PoolList.IndexOfName, hp], by simp, hp, ?_⟩
      intro j q hj
      omega
    · have hrest : ∃ q ∈ rest, q.name = n := by
        obtain ⟨q, hq, hqn⟩ := h
        rcases List.mem_cons.mp hq with hq | hq
        · subst hq
          exact absurd hqn hp
        · exact ⟨q, hq, hqn⟩
      obtain ⟨i, pool, hi, hget, hname, hfirst⟩ := ih hrest
      refine ⟨i + 1, pool, ?_, by simpa using hget, hname, ?_⟩
      · have hge : PoolList.IndexOfName rest n ≥ 0 := by rw [hi]; omega
        simp only [PoolList.IndexOfName, hp, if_false, hge, if_true, hi]
        push_cast
        rfl
      · intro j q hj hq
        cases j with
        | zero =>
          simp at hq
          subst hq
          exact hp
        | succ j =>
          simp at hq
          exact hfirst j q (by omega) hq

/-- `AddExclusivePool` with a name no exclusive pool has: a new empty pool is appended. -/
theorem AddExclusivePool_new (host : hostImpl) (n : String)
    (h : ∀ p ∈ host.exclusivePools, p.name ≠ n) :
    host.AddExclusivePool n =
      some ({ host with exclusivePools := host.exclusivePools ++
              [{ kind := .exclusivePoolType, name := n, cpus := [] }] },
            { kind := .exclusivePoolType, name := n, cpus := [] }, none) := by
  simp [hostImpl.AddExclusivePool, IndexOfName_not_found _ _ h, PoolList.add]

/-- `AddExclusivePool` with a name some exclusive pool has: the host stays as it is and the
first pool of that name is returned with an error. -/
theorem AddExclusivePool_old (host : hostImpl) (n : String)
    (h : ∃ p ∈ host.exclusivePools, p.name = n) :
    ∃ (i : Nat) (pool : Pool),
      PoolList.IndexOfName host.exclusivePools n = (i : Int) ∧
      host.exclusivePools[i]? = some pool ∧ pool.name = n ∧
      (∀ j q, j < i → host.exclusivePools[j]? = some q → q.name ≠ n) ∧
      host.AddExclusivePool n =
        some (host, pool, some ⟨"pool with name " ++ n ++ " already exists"⟩) := by
  obtain ⟨i, pool, hi, hget, hname, hfirst⟩ := IndexOfName_found _ _ h
  refine ⟨i, pool, hi, hget, hname, hfirst, ?_⟩
  simp [hostImpl.AddExclusivePool, hi, hget]

/-- C12: for every host and every pool name `n`. If an exclusive pool named `n` exists,
`AddExclusivePool(n)` returns the existing pool of that name (the first in the list)
together with the error "pool with name n already exists", and leaves the host, its
exclusive pool list included, as it is. If none exists, the first call returns a new pool
named `n` with a nil error and appends it to the list, a second call returns that same
pool with the error and changes nothing, and the list then holds exactly one pool
named `n`. -/
theorem AddExclusivePool_twice (host : hostImpl) (n : String) :
    ((∃ p ∈ host.exclusivePools, p.name = n) →
      ∃ (i : Nat) (pool : Pool),
        PoolList.IndexOfName host.exclusivePools n = (i : Int) ∧
        host.exclusivePools[i]? = some pool ∧ pool.name = n ∧
        (∀ j q, j < i → host.exclusivePools[j]? = some q → q.name ≠ n) ∧
        host.AddExclusivePool n =
          some (host, pool, some ⟨"pool with name " ++ n ++ " already exists"⟩)) ∧
    ((∀ p ∈ host.exclusivePools, p.name ≠ n) →
      ∃ (host1 : hostImpl) (pool : Pool),
        host.AddExclusivePool n = some (host1, pool, none) ∧
        pool = { kind := .exclusivePoolType, name := n, cpus := [] } ∧
        host1 = { host with exclusivePools := host.exclusivePools ++ [pool] } ∧
        host1.AddExclusivePool n =
          some (host1, pool, some ⟨"pool with name " ++ n ++ " already exists"⟩) ∧
        host1.exclusivePools.filter (fun p => p.name = n) = [pool]) := by
  refine ⟨AddExclusivePool_old host n, ?_⟩
  intro hnew
  refine ⟨_, _, AddExclusivePool_new host n hnew, rfl, rfl, ?_, ?_⟩
  · obtain ⟨i, pool, _, hget, hname, hfirst, hadd⟩ := AddExclusivePool_old
      { host with exclusivePools := host.exclusivePools ++
          [{ kind := .exclusivePoolType, name := n, cpus := [] }] } n
      ⟨{ kind := .exclusivePoolType, name := n, cpus := [] }, by simp, rfl⟩
    rw [hadd]
    have hi : i = host.exclusivePools.length := by
      rcases Nat.lt_trichotomy i host.exclusivePools.length with hlt | heq | hgt
      · simp only at hget
        rw [List.getElem?_append_left hlt] at hget
        have hmem : pool ∈ host.exclusivePools := List.getElem?_mem hget
        exact absurd hname (hnew pool hmem)
      · exact heq
      · exfalso
        have := hfirst host.exclusivePools.length
          { kind := .exclusivePoolType, name := n, cpus := [] } hgt (by simp)
        exact this rfl
    subst hi
    simp only [List.getElem?_concat_length, Option.some.injEq] at hget
    rw [hget]
  · simp only [List.filter_append]
    have : host.exclusivePools.filter (fun p => decide (p.name = n)) = [] := by
      rw [List.filter_eq_nil_iff]
      intro p hp
      simpa using hnew p hp
    simp [this]

/-- Every call of `AddExclusivePool` returns, touches nothing but the exclusive pool list,
and either leaves that list alone, the name being taken, or appends a pool of the new
name. -/
theorem AddExclusivePool_step (host : hostImpl) (n : String) :
    ∃ (host1 : hostImpl) (pool : Pool) (err : Option GoError),
      host.AddExclusivePool n = some (host1, pool, err) ∧
      host1.reservedPool = host.reservedPool ∧ host1.sharedPool = host.sharedPool ∧
      ((host1.exclusivePools = host.exclusivePools ∧
          n ∈ host.exclusivePools.map (fun p => p.name)) ∨
        (host1.exclusivePools = host.exclusivePools ++ [pool] ∧ pool.name = n ∧
          n ∉ host.exclusivePools.map (fun p => p.name))) := by
  by_cases h : ∃ p ∈ host.exclusivePools, p.name = n
  · obtain ⟨i, pool, _, _, _, _, hadd⟩ := AddExclusivePool_old host n h
    refine ⟨host, pool, _, hadd, rfl, rfl, Or.inl ⟨rfl, ?_⟩⟩
    obtain ⟨p, hp, hpn⟩ := h
    exact List.mem_map.mpr ⟨p, hp, hpn⟩
  · have hnew : ∀ p ∈ host.exclusivePools, p.name ≠ n := by
      intro p hp hpn
      exact h ⟨p, hp, hpn⟩
    refine ⟨_, _, none, AddExclusivePool_new host n hnew, rfl, rfl, Or.inr ⟨rfl, rfl, ?_⟩⟩
    intro hmem
    obtain ⟨p, hp, hpn⟩ := List.mem_map.mp hmem
    exact hnew p hp hpn

/-- A sequence of `AddExclusivePool` calls never panics, keeps the Reserved and the Shared
pool, keeps the exclusive names pairwise distinct, and ends with the names it started
with and the names passed. -/
theorem addExclusivePools_invariant (names : List String) (host : hostImpl) :
    ∃ host1 : hostImpl, host.addExclusivePools names = some host1 ∧
      host1.reservedPool = host.reservedPool ∧ host1.sharedPool = host.sharedPool ∧
      ((host.exclusivePools.map (fun p => p.name)).Nodup →
        (host1.exclusivePools.map (fun p => p.name)).Nodup) ∧
      (∀ m, m ∈ host1.exclusivePools.map (fun p => p.name) ↔
        m ∈ host.exclusivePools.map (fun p => p.name) ∨ m ∈ names) := by
  induction names generalizing host with
  | nil => exact ⟨host, rfl, rfl, rfl, id, by simp⟩
  | cons n rest ih =>
    obtain ⟨h1, pool, err, hadd, hr, hs, hcase⟩ := AddExclusivePool_step host n
    obtain ⟨h2, hseq, hr2, hs2, hnd, hmem⟩ := ih h1
    refine ⟨h2, by simp [hostImpl.addExclusivePools, hadd, hseq], hr2.trans hr,
      hs2.trans hs, ?_, ?_⟩
    · intro hnd0
      apply hnd
      rcases hcase with ⟨he, _⟩ | ⟨he, hpn, hfresh⟩
      · rw [he]
        exact hnd0
      · rw [he, List.map_append, List.nodup_append]
        refine ⟨hnd0, by simp, ?_⟩
        intro a ha hb
        simp only [List.map_cons, List.map_nil, List.mem_singleton] at hb
        rw [hb, hpn] at ha
        exact hfresh ha
    · intro m
      rw [hmem m]
      rcases hcase with ⟨he, hin⟩ | ⟨he, hpn, _⟩
      · rw [he]
        constructor
        · rintro (h | h)
          · exact Or.inl h
          · exact Or.inr (List.mem_cons_of_mem _ h)
        · rintro (h | h)
          · exact Or.inl h
          · rcases List.mem_cons.mp h with h | h
            · subst h
              exact Or.inl hin
            · exact Or.inr h
      · rw [he]
        simp only [List.map_append, List.map_cons, List.map_nil, List.mem_append,
          List.mem_singleton, List.mem_cons, hpn]
        tauto

/-- C13, as stated, fails: on the host `initHost` builds, the pool name constants being
`reservedPool` and `sharedPool`, the call `AddExclusivePool("reservedPool")` succeeds, and
the Reserved pool and the new Exclusive pool then carry the same name. The same happens
whatever the two constants are, the name check looking at the exclusive list only. -/
theorem pool_names_counterexample :
    (testHost.bind (fun h => h.addExclusivePools ["reservedPool"])).map
        (fun h => h.poolNames) = some ["reservedPool", "sharedPool", "reservedPool"] ∧
    ¬ (["reservedPool", "sharedPool", "reservedPool"] : List String).Nodup := by
  decide

/-- C13, amended: in every host state reached from `initHost` by a sequence of
`AddExclusivePool` calls with arbitrary names (no call panics), the names of the Exclusive
pools are pairwise distinct and are the names passed, and the Reserved and the Shared pool
keep the names `initHost` gave them. The names of all pools are pairwise distinct exactly
when the two predefined names differ and neither was passed to `AddExclusivePool`. -/
theorem exclusive_pool_names_distinct (env : Env) (reservedPoolName sharedPoolName : String)
    (topology : Topology) (nodeName : String) (names : List String) :
    ∃ host host1 : hostImpl,
      initHost env reservedPoolName sharedPoolName (topology, none) nodeName
        = (some host, none) ∧
      host.addExclusivePools names = some host1 ∧
      (host1.exclusivePools.map (fun p => p.name)).Nodup ∧
      (∀ m, m ∈ host1.exclusivePools.map (fun p => p.name) ↔ m ∈ names) ∧
      host1.reservedPool.name = reservedPoolName ∧
      host1.sharedPool.name = sharedPoolName ∧
      (host1.poolNames.Nodup ↔
        reservedPoolName ≠ sharedPoolName ∧ reservedPoolName ∉ names ∧
          sharedPoolName ∉ names) := by
  obtain ⟨h1, hseq, hr, hs, hnd, hmem⟩ := addExclusivePools_invariant names
    { name := nodeName
      architecture := env.architecture
      vendorId := env.vendorID
      exclusivePools := []
      reservedPool :=
        { kind := .reservedPoolType, name := reservedPoolName,
          cpus := (topology.CPUs.map (fun cpu => cpu._setPoolProperty .reservedPool)).take
            (topology.CPUs.map (fun cpu => cpu._setPoolProperty .reservedPool)).length }
      sharedPool := { kind := .sharedPoolType, name := sharedPoolName, cpus := [] }
      topology := { CPUs := topology.CPUs.map (fun cpu => cpu._setPoolProperty .reservedPool) } }
  have hnd1 := hnd (by simp)
  have hmem1 : ∀ m, m ∈ h1.exclusivePools.map (fun p => p.name) ↔ m ∈ names := by
    intro m
    rw [hmem m]
    simp
  have hrn : h1.reservedPool.name = reservedPoolName := by rw [hr]
  have hsn : h1.sharedPool.name = sharedPoolName := by rw [hs]
  refine ⟨_, h1, rfl, hseq, hnd1, hmem1, hrn, hsn, ?_⟩
  simp only [hostImpl.poolNames, List.nodup_cons, List.mem_cons, hrn, hsn, hmem1]
  constructor
  · rintro ⟨h1, h2, _⟩
    exact ⟨fun h => h1 (Or.inl h), fun h => h1 (Or.inr h), h2⟩
  · rintro ⟨h1, h2, h3⟩
    refine ⟨?_, h3, hnd1⟩
    rintro (h | h)
    · exact h1 h
    · exact h2 h

/-- C14: when `discoverTopology` succeeds, `initHost(name)` returns a host and a nil error.
The Reserved pool lists the CPUs of the topology, same length, same elements, same order;
the Shared pool and the exclusive pool list are empty; the host carries the name given; the
CPUs are the discovered ones, each with its pool property set to the Reserved pool; and
every CPU is in exactly one pool of the host, the Reserved one. -/
theorem initHost_initial_state (env : Env) (reservedPoolName sharedPoolName : String)
    (topology : Topology) (nodeName : String) :
    ∃ host : hostImpl,
      initHost env reservedPoolName sharedPoolName (topology, none) nodeName
        = (some host, none) ∧
      host.reservedPool.cpus = host.topology.CPUs ∧
      host.reservedPool.cpus.length = host.topology.CPUs.length ∧
      host.sharedPool.cpus = [] ∧
      host.exclusivePools = [] ∧
      host.name = nodeName ∧
      host.reservedPool.kind = .reservedPoolType ∧
      host.sharedPool.kind = .sharedPoolType ∧
      host.topology.CPUs.length = topology.CPUs.length ∧
      host.topology.CPUs.map (fun cpu => cpu.id) = topology.CPUs.map (fun cpu => cpu.id) ∧
      (∀ cpu ∈ host.topology.CPUs, cpu.pool = some .reservedPool) ∧
      (∀ cpu ∈ host.topology.CPUs,
        ∃! pool, pool ∈ host.pools ∧ cpu ∈ pool.cpus) ∧
      (∀ cpu ∈ host.topology.CPUs,
        cpu ∈ host.reservedPool.cpus ∧ cpu ∉ host.sharedPool.cpus) ∧
      (∀ cpu, cpu ∈ host.reservedPool.cpus ∨ cpu ∈ host.sharedPool.cpus →
        cpu ∈ host.topology.CPUs) := by
  obtain ⟨host, hhost⟩ : ∃ host : hostImpl,
      initHost env reservedPoolName sharedPoolName (topology, none) nodeName
        = (some host, none) := ⟨_, rfl⟩
  have heq := Option.some.inj (Prod.mk.inj hhost).1
  have hrc : host.reservedPool.cpus =
      topology.CPUs.map (fun cpu => cpu._setPoolProperty .reservedPool) := by
    rw [← heq]
    simp
  have htc : host.topology.CPUs =
      topology.CPUs.map (fun cpu => cpu._setPoolProperty .reservedPool) := by
    rw [← heq]
  have hsc : host.sharedPool.cpus = [] := by rw [← heq]
  have hex : host.exclusivePools = [] := by rw [← heq]
  have hname : host.name = nodeName := by rw [← heq]
  have hrk : host.reservedPool.kind = .reservedPoolType := by rw [← heq]
  have hsk : host.sharedPool.kind = .sharedPoolType := by rw [← heq]
  refine ⟨host, hhost, by rw [hrc, htc], by rw [hrc, htc], hsc, hex, hname, hrk, hsk,
    ?_, ?_, ?_, ?_, ?_, ?_⟩
  · rw [htc]
    simp
  · rw [htc]
    simp [Cpu._setPoolProperty, Function.comp_def]
  · intro cpu hcpu
    rw [htc] at hcpu
    obtain ⟨c, _, hc⟩ := List.mem_map.mp hcpu
    rw [← hc]
    rfl
  · intro cpu hcpu
    refine ⟨host.reservedPool,
      ⟨by simp [hostImpl.pools], by rw [hrc, ← htc]; exact hcpu⟩, ?_⟩
    rintro pool ⟨hp, hin⟩
    simp only [hostImpl.pools, hex, List.mem_cons, List.mem_nil_iff, or_false] at hp
    rcases hp with hp | hp
    · exact hp
    · rw [hp, hsc] at hin
      simp at hin
  · intro cpu hcpu
    refine ⟨by rw [hrc, ← htc]; exact hcpu, by rw [hsc]; simp⟩
  · intro cpu hcpu
    rcases hcpu with h | h
    · rw [htc, ← hrc]
      exact h
    · rw [hsc] at h
      simp at h

end Power
